import Mathlib

/-!
Shallow embedding of the Hashiwokakero board model (`board.py`) and of the
CSP solver (`hashi_solver.py`), together with theorems checking the design
specification against the code.

Modelling conventions:
* Python `int` is `Int`; grid coordinates are `Nat` (all islands live at
  non-negative coordinates, and a non-island argument fails the same check
  either way).
* The Python `dict` keyed by `frozenset({a, b})` is an association list keyed
  by the canonical (lexicographically sorted) ordered pair; `dictGet`,
  `dictSet` and `dictDel` mirror dict read, write and delete, keeping
  insertion order like CPython dicts.
* The Python `set` of occupied segments is a `Finset` (Python sets are
  extensional; only membership, add and discard are used on it).
* The `while` loops that scan for visible neighbours are the structurally
  recursive `scanDesc` / `scanAsc`; the solver's `while changed` propagation
  loop and the recursion of `backtrack` take explicit fuel, instantiated at
  bounds that the Python loops never exceed (see the comments at `propagate`
  and `solve_csp`).
-/

set_option maxHeartbeats 1000000

namespace Hashi

/-- Grid position `(row, column)`, 0-based, as used throughout `board.py`. -/
abbrev Pos := Nat × Nat

/-- Bridge orientation: horizontal (`"H"` in the Python code) or vertical (`"V"`). -/
inductive Orient where
  | H
  | V
deriving DecidableEq, Repr

/-- A unit corridor segment: orientation tag plus the minimum-coordinate cell,
mirroring the tuples `("H", r, c)` / `("V", r, c)` of `board.py`. -/
abbrev Seg := Orient × Nat × Nat

/-- One ledger entry, modelling the Python dict `{"k": int, "dir": 'H'|'V'}`.
`dir` is an `Option` because the code stores the raw result of `_orient`. -/
structure BridgeInfo where
  k : Int
  dir : Option Orient
deriving DecidableEq, Repr

/-- Lexicographic comparison of positions, used only to pick a canonical
representative of the unordered pair `frozenset({a, b})`. -/
def posLe (p q : Pos) : Bool :=
  decide (p.1 < q.1) || (decide (p.1 = q.1) && decide (p.2 ≤ q.2))

/-- Canonical key of the unordered pair `{a, c}` (`_pair_key` in `board.py`:
a `frozenset` key, represented here by the sorted ordered pair). -/
def pairKey (a c : Pos) : Pos × Pos :=
  if posLe a c then (a, c) else (c, a)

/-- Association-list lookup, modelling a Python dict read (`d.get(key)`). -/
def dictGet {β : Type} (l : List ((Pos × Pos) × β)) (key : Pos × Pos) : Option β :=
  (l.find? (fun e => decide (e.1 = key))).map (fun e => e.2)

/-- Association-list write, modelling `d[key] = v`: replace the first binding
of the key in place, else append a new binding at the end. -/
def dictSet {β : Type} (l : List ((Pos × Pos) × β)) (key : Pos × Pos) (v : β) :
    List ((Pos × Pos) × β) :=
  match l with
  | [] => [(key, v)]
  | e :: es => if e.1 = key then (key, v) :: es else e :: dictSet es key v

/-- Association-list delete, modelling `del d[key]`. -/
def dictDel {β : Type} (l : List ((Pos × Pos) × β)) (key : Pos × Pos) :
    List ((Pos × Pos) × β) :=
  match l with
  | [] => []
  | e :: es => if e.1 = key then es else e :: dictDel es key

/-- Downward scan: first index `x < n` (counting down from `n - 1`) with
`pr x`, modelling the `while rr >= 0` / `while cc >= 0` loops of
`_precompute_visible_neighbors`. -/
def scanDesc (pr : Nat → Bool) : Nat → Option Nat
  | 0 => none
  | n + 1 => if pr n then some n else scanDesc pr n

/-- Upward scan with fuel: first index with `pr`, starting at `s`, trying
`fuel` indices. -/
def scanAscAux (pr : Nat → Bool) : Nat → Nat → Option Nat
  | _, 0 => none
  | s, f + 1 => if pr s then some s else scanAscAux pr (s + 1) f

/-- Upward scan: first index `x` with `s ≤ x < bound` and `pr x`, modelling
the `while rr < n_rows` / `while cc < n_cols` loops. -/
def scanAsc (pr : Nat → Bool) (s bound : Nat) : Option Nat :=
  scanAscAux pr s (bound - s)

/-- Board state: static grid data plus the two mutable components (bridge
ledger and occupied-segment set) of the Python `Board` class. -/
structure Board where
  nRows : Int
  nCols : Int
  grid : List (List Char)
  bridges : List ((Pos × Pos) × BridgeInfo)
  occupied : Finset Seg
deriving DecidableEq

/-- Fresh board as produced by `Board.__init__`: empty ledger, empty
occupancy set. -/
def Board.make (nRows nCols : Int) (grid : List (List Char)) : Board :=
  ⟨nRows, nCols, grid, [], ∅⟩

/-- Grid cell access `self.grid[r][c]` (in-bounds wherever the code reads it). -/
def Board.cell (b : Board) (r c : Nat) : Char :=
  (b.grid.getD r []).getD c '0'

/-- Numeric value of a digit character, modelling Python `int(ch)`. -/
def charVal (ch : Char) : Int :=
  (ch.toNat : Int) - 48

/-- Island list `self.islands`: positions of digit cells other than `'0'`,
in row-major order, with their required degree. -/
def islandsOf (b : Board) : List (Pos × Int) :=
  (List.range b.nRows.toNat).flatMap fun r =>
    (List.range b.nCols.toNat).filterMap fun c =>
      if (b.cell r c).isDigit ∧ b.cell r c ≠ '0' then some ((r, c), charVal (b.cell r c)) else none

/-- Island index `self.is_island`: required degree of the island at `p`, if any. -/
def is_island? (b : Board) (p : Pos) : Option Int :=
  ((islandsOf b).find? (fun e => decide (e.1 = p))).map (fun e => e.2)

/-- The four scan directions of `_precompute_visible_neighbors`. -/
inductive Dir where
  | U
  | D
  | L
  | R
deriving DecidableEq, Repr

/-- Nearest island from `p` in direction `d` (`self.visible_neighbors[p][d]`).
The Python code precomputes this once per island; since the grid never
changes, recomputing it is equivalent. -/
def visibleNeighbor (b : Board) (p : Pos) : Dir → Option Pos
  | .U => (scanDesc (fun rr => (is_island? b (rr, p.2)).isSome) p.1).map fun rr => (rr, p.2)
  | .D => (scanAsc (fun rr => (is_island? b (rr, p.2)).isSome) (p.1 + 1) b.nRows.toNat).map
      fun rr => (rr, p.2)
  | .L => (scanDesc (fun cc => (is_island? b (p.1, cc)).isSome) p.2).map fun cc => (p.1, cc)
  | .R => (scanAsc (fun cc => (is_island? b (p.1, cc)).isSome) (p.2 + 1) b.nCols.toNat).map
      fun cc => (p.1, cc)

/-- Orientation of the pair `(a, c)` (`_orient`): horizontal if the rows agree,
else vertical if the columns agree, else `none`. -/
def orient (a c : Pos) : Option Orient :=
  if a.1 = c.1 then some .H else if a.2 = c.2 then some .V else none

/-- Corridor of `(a, c)` (`_path_between`): the unit segments strictly between
the two cells, tagged with the corridor's orientation. -/
def path_between (a c : Pos) : List Seg :=
  if a.1 = c.1 then
    (List.range' (min a.2 c.2) (max a.2 c.2 - min a.2 c.2)).map fun cc => (Orient.H, a.1, cc)
  else if a.2 = c.2 then
    (List.range' (min a.1 c.1) (max a.1 c.1 - min a.1 c.1)).map fun rr => (Orient.V, rr, a.2)
  else []

/-- Current degree of `a` (`Board.degree`): sum of the multiplicities of the
ledger entries incident to `a`, skipping multiplicity-0 entries. -/
def degree (b : Board) (a : Pos) : Int :=
  b.bridges.foldl
    (fun total e =>
      if e.2.k = 0 then total
      else if a = e.1.1 ∨ a = e.1.2 then total + e.2.k
      else total)
    0

/-- Visibility check of `_visible_aligned`: `c` must be exactly the nearest
visible neighbour of `a` in the shared axis direction. -/
def visible_aligned (b : Board) (a c : Pos) : Bool :=
  match orient a c with
  | none => false
  | some .H =>
      if a.2 < c.2 then decide (visibleNeighbor b a .R = some c)
      else decide (visibleNeighbor b a .L = some c)
  | some .V =>
      if a.1 < c.1 then decide (visibleNeighbor b a .D = some c)
      else decide (visibleNeighbor b a .U = some c)

/-- Crossing test `_crossing_if_add`, modelled exactly as written: a candidate
segment signals a crossing only when the segment itself is already occupied
and the orthogonal segment with the same `(r, c)` tag is occupied as well. -/
def crossing_if_add (b : Board) (a c : Pos) : Bool :=
  (path_between a c).any fun seg =>
    decide (seg ∈ b.occupied) &&
      (match seg.1 with
       | .H => decide ((Orient.V, seg.2.1, seg.2.2) ∈ b.occupied)
       | .V => decide ((Orient.H, seg.2.1, seg.2.2) ∈ b.occupied))

/-- Multiplicity currently recorded for a key, 0 when absent
(`self.bridges.get(key, ...)["k"]` and the solver's `k_current`). -/
def curK (b : Board) (key : Pos × Pos) : Int :=
  match dictGet b.bridges key with
  | some info => info.k
  | none => 0

/-- Validation of `can_add_bridge`, including the exact error strings. -/
def Board.can_add_bridge (b : Board) (a c : Pos) (k : Int) : Bool × String :=
  if (is_island? b a).isNone ∨ (is_island? b c).isNone then
    (false, "Ambos extremos deben ser islas.")
  else if ¬(k = 1 ∨ k = 2) then
    (false, "k debe ser 1 o 2.")
  else if ¬ visible_aligned b a c then
    (false, "Islas no están alineadas como vecinas visibles.")
  else
    if 2 < curK b (pairKey a c) + k then
      (false, "Máximo 2 puentes entre las mismas islas.")
    else if crossing_if_add b a c then
      (false, "El puente propuesto cruzaría otro puente.")
    else if (is_island? b a).getD 0 < degree b a + k then
      (false, "La isla " ++ toString a ++ " excedería su número.")
    else if (is_island? b c).getD 0 < degree b c + k then
      (false, "La isla " ++ toString c ++ " excedería su número.")
    else
      (true, "OK")

/-- State change of `add_bridge`, returning the verdict together with the
board as the method leaves it. -/
def Board.add_bridge (b : Board) (a c : Pos) (k : Int) : (Bool × String) × Board :=
  let chk := b.can_add_bridge a c k
  if chk.1 then
    let key := pairKey a c
    let ori := orient a c
    let info := (dictGet b.bridges key).getD ⟨0, ori⟩
    let bridges' := dictSet b.bridges key ⟨info.k + k, ori⟩
    let occ' := (path_between a c).foldl (fun s seg => insert seg s) b.occupied
    ((true, "Puente agregado."), { b with bridges := bridges', occupied := occ' })
  else
    ((false, chk.2), b)

/-- Validation of `can_remove_bridge`. -/
def Board.can_remove_bridge (b : Board) (a c : Pos) (k : Int) : Bool × String :=
  if (is_island? b a).isNone ∨ (is_island? b c).isNone then
    (false, "Ambos extremos deben ser islas.")
  else if ¬(k = 1 ∨ k = 2) then
    (false, "k debe ser 1 o 2.")
  else
    match dictGet b.bridges (pairKey a c) with
    | none => (false, "No hay tantos puentes para quitar.")
    | some info => if info.k < k then (false, "No hay tantos puentes para quitar.") else (true, "OK")

/-- State change of `remove_bridge`: decrement the entry; on reaching zero,
discard the corridor segments (guarded membership test, like the Python
`if s in occupied: remove`) and delete the entry. -/
def Board.remove_bridge (b : Board) (a c : Pos) (k : Int) : (Bool × String) × Board :=
  let chk := b.can_remove_bridge a c k
  if chk.1 then
    let key := pairKey a c
    let info := (dictGet b.bridges key).getD ⟨0, none⟩
    if info.k - k = 0 then
      let occ' := (path_between a c).foldl (fun s seg => s.erase seg) b.occupied
      ((true, "Puente quitado."), { b with bridges := dictDel b.bridges key, occupied := occ' })
    else
      ((true, "Puente quitado."),
        { b with bridges := dictSet b.bridges key ⟨info.k - k, info.dir⟩ })
  else
    ((false, chk.2), b)

/-- Final count check `counts_ok`: every island's degree equals its number. -/
def Board.counts_ok (b : Board) : Bool :=
  (islandsOf b).all fun e => decide (degree b e.1 = e.2)

/-- Bridge-graph adjacency used by `is_connected`: a positive-multiplicity
ledger entry joining `p` and `q`. -/
def adjacent (b : Board) (p q : Pos) : Bool :=
  b.bridges.any fun e =>
    decide (0 < e.2.k) &&
      ((decide (e.1.1 = p) && decide (e.1.2 = q)) || (decide (e.1.2 = p) && decide (e.1.1 = q)))

/-- One round of breadth-first expansion: adjoin every island adjacent to the
set already seen. -/
def expandSeen (b : Board) (seen : List Pos) : List Pos :=
  seen ++ ((islandsOf b).map (fun e => e.1)).filter fun q =>
    decide (q ∉ seen) && seen.any fun p => adjacent b p q

/-- Iterated expansion; `n` rounds reach everything at distance `≤ n`. -/
def reachFrom (b : Board) : Nat → List Pos → List Pos
  | 0, seen => seen
  | n + 1, seen => reachFrom b n (expandSeen b seen)

/-- Connectivity check `is_connected`: the breadth-first traversal from the
first island visits every island. Iterating one expansion round per island
reaches exactly the islands the Python BFS visits. -/
def Board.is_connected (b : Board) : Bool :=
  match islandsOf b with
  | [] => true
  | e :: _ =>
      decide ((reachFrom b (islandsOf b).length [e.1]).length = (islandsOf b).length)

/-- Terminal validity check `full_check`. -/
def Board.full_check (b : Board) : Bool × String :=
  if ¬ b.counts_ok then (false, "Alguna isla no cumple su número.")
  else if ¬ b.is_connected then (false, "El grafo no está conectado.")
  else (true, "OK")

/-- Integer literal parsing, modelling Python `int(s)` on the header parts:
optional surrounding whitespace, optional sign, then decimal digits.
Digit-group underscores accepted by Python are not modelled. -/
def pyInt? (s : List Char) : Option Int :=
  let cs := ((s.dropWhile Char.isWhitespace).reverse.dropWhile Char.isWhitespace).reverse
  let digits : List Char → Option Int := fun ds =>
    if ds ≠ [] ∧ ds.all Char.isDigit then
      some (ds.foldl (fun acc ch => acc * 10 + ((ch.toNat : Int) - 48)) 0)
    else none
  match cs with
  | '-' :: rest => (digits rest).map (fun n => -n)
  | '+' :: rest => digits rest
  | rest => digits rest

/-- Splitting on every occurrence of a separator character, empty parts kept,
modelling Python `str.split(",")` (which never drops empty fields). -/
def splitOnChar (sep : Char) : List Char → List (List Char)
  | [] => [[]]
  | ch :: rest =>
    let r := splitOnChar sep rest
    if ch = sep then [] :: r
    else (ch :: r.headD []) :: r.tail

/-- Header parsing `n_rows, n_cols = map(int, line.split(","))`: exactly two
comma-separated parts, both readable as integers. -/
def parseHeader (s : String) : Option (Int × Int) :=
  match (splitOnChar ',' s.toList).map pyInt? with
  | [some r, some c] => some (r, c)
  | _ => none

/-- Grid-row validation loop of `parse_from_lines` (`i` is the 1-based row
number used in the error messages). -/
def parseRows (nCols : Int) : List String → Nat → Except String (List (List Char))
  | [], _ => Except.ok []
  | line :: ls, i =>
    if (line.length : Int) ≠ nCols then
      Except.error ("Fila " ++ toString i ++ " no tiene " ++ toString nCols ++ " columnas exactas.")
    else
      match line.toList.find? (fun ch => decide (ch < '0') || decide ('8' < ch)) with
      | some ch =>
          Except.error ("Caracter inválido '" ++ toString ch ++ "' en fila " ++ toString i ++
            ". Debe ser 0..8.")
      | none => (parseRows nCols ls (i + 1)).map (fun rows => line.toList :: rows)

/-- Input validation and construction `parse_from_lines`; a `ValueError`
becomes an `Except.error` carrying the same message. -/
def Board.parse_from_lines (lines : List String) : Except String Board :=
  match lines with
  | [] => Except.error "Archivo vacío."
  | l0 :: rest =>
    if ¬ l0.toList.contains ',' then
      Except.error "Encabezado inválido. Use 'filas,columnas'."
    else
      match parseHeader l0 with
      | none => Except.error "Encabezado inválido: no se pudo leer filas y columnas."
      | some (nRows, nCols) =>
        if (rest.length : Int) ≠ nRows then
          Except.error "Cantidad de filas no coincide con el encabezado."
        else
          (parseRows nCols rest 1).map fun grid => Board.make nRows nCols grid

/-- Candidate-edge construction `_build_edges` of `hashi_solver.py`: for each
island and each direction `U, D, L, R`, record the visible pair once,
deduplicated by the unordered pair key, in discovery order. -/
def buildEdges (b : Board) : List (Pos × Pos) :=
  ((islandsOf b).foldl
    (fun (acc : List (Pos × Pos) × List (Pos × Pos)) e =>
      let a := e.1
      [Dir.U, Dir.D, Dir.L, Dir.R].foldl
        (fun acc d =>
          match visibleNeighbor b a d with
          | none => acc
          | some c =>
            let key := pairKey a c
            if key ∈ acc.2 then acc else (acc.1 ++ [(a, c)], acc.2 ++ [key]))
        acc)
    ([], [])).1

/-- Per-island incidence index of `_build_edges`: ascending indices of the
edges touching `p`. -/
def incidentOf (edges : List (Pos × Pos)) (p : Pos) : List Nat :=
  (List.range edges.length).filter fun i =>
    decide ((edges.getD i ((0, 0), (0, 0))).1 = p) ||
      decide ((edges.getD i ((0, 0), (0, 0))).2 = p)

/-- Minimum of a non-empty integer list (Python `min` over a domain set). -/
def listMin : List Int → Int
  | [] => 0
  | x :: xs => xs.foldl min x

/-- Maximum of a non-empty integer list (Python `max` over a domain set). -/
def listMax : List Int → Int
  | [] => 0
  | x :: xs => xs.foldl max x

/-- Insertion step for descending sort. -/
def insertDesc (x : Int) : List Int → List Int
  | [] => [x]
  | y :: ys => if y ≤ x then x :: y :: ys else y :: insertDesc x ys

/-- Descending sort of a domain, modelling `sorted(domain, reverse=True)`. -/
def sortDesc (l : List Int) : List Int :=
  l.foldr insertDesc []

/-- First element of `l` with the smallest key, modelling
`min(unassigned, key=...)` with Python's first-minimum tie-break. -/
def minByKey (l : List Nat) (f : Nat → Nat) : Nat :=
  l.foldl (fun best i => if f i < f best then i else best) (l.headD 0)

/-- One pass of the `propagate` loop over all islands: forward checking of the
per-island counts plus the three simple forcing rules. Returns `none` on a
viability failure (Python `return False`), otherwise the updated domains and
whether any domain changed. -/
def propagatePass (b : Board) (incident : Pos → List Nat) (dom0 : Nat → List Int)
    (u : List Nat) : Option ((Nat → List Int) × Bool) :=
  (islandsOf b).foldl
    (fun acc e =>
      match acc with
      | none => none
      | some (dom, changed) =>
        let pos := e.1
        let used := degree b pos
        let left := e.2 - used
        if left < 0 then none
        else
          let uEdges := (incident pos).filter fun i => decide (i ∈ u)
          if uEdges.isEmpty then
            if left ≠ 0 then none else some (dom, changed)
          else
            let sums := uEdges.foldl
              (fun (acc2 : Option (Int × Int)) i =>
                match acc2 with
                | none => none
                | some (mins, maxs) =>
                  let d := dom i
                  if d.isEmpty then none
                  else some (mins + listMin d, maxs + listMax d))
              (some (0, 0))
            match sums with
            | none => none
            | some (mins, maxs) =>
              if left < mins ∨ maxs < left then none
              else
                let cnt := uEdges.length
                if left = 0 then
                  some (uEdges.foldl
                    (fun (st : (Nat → List Int) × Bool) i =>
                      if st.1 i ≠ [0] then ((fun j => if j = i then [0] else st.1 j), true)
                      else st)
                    (dom, changed))
                else if left = 2 * (cnt : Int) then
                  some (uEdges.foldl
                    (fun (st : (Nat → List Int) × Bool) i =>
                      if st.1 i ≠ [2] then ((fun j => if j = i then [2] else st.1 j), true)
                      else st)
                    (dom, changed))
                else if left = 1 ∧ cnt = 1 then
                  let i := uEdges.headD 0
                  if dom i ≠ [1] then
                    some ((fun j => if j = i then [1] else dom j), true)
                  else some (dom, changed)
                else some (dom, changed))
    (some (dom0, false))

/-- Fixed-point iteration of `propagate` (`while changed`), with explicit
fuel. Each pass that reports a change strictly shrinks the total size of the
domains (every forcing rule replaces a domain by a singleton that viability
has just shown compatible), so `3 * edges + 2` passes are never exhausted;
`none` is a propagation failure. -/
def propagate (b : Board) (incident : Pos → List Nat) :
    Nat → (Nat → List Int) → List Nat → Option (Nat → List Int)
  | 0, _, _ => none
  | fuel + 1, dom, u =>
    match propagatePass b incident dom u with
    | none => none
    | some (dom', changed) =>
      if changed then propagate b incident fuel dom' u else some dom'

/-- Continuation of one `backtrack` loop iteration after the delta (if any)
has been applied to the live board `b1`: pin the variable, propagate, recurse,
and undo the delta on every non-success exit. -/
def afterTry (prop : (Nat → List Int) → List Nat → Board → Option (Nat → List Int))
    (bt : (Nat → List Int) → List Nat → Board → Bool × Board)
    (var : Nat) (a c : Pos) (dom : Nat → List Int) (u : List Nat)
    (v delta : Int) (b1 : Board) : Bool × Board :=
  match prop (fun j => if j = var then [v] else dom j) (u.erase var) b1 with
  | none => (false, if 0 < delta then (b1.remove_bridge a c delta).2 else b1)
  | some dom2 =>
    match bt dom2 (u.erase var) b1 with
    | (true, b2) => (true, b2)
    | (false, b2) => (false, if 0 < delta then (b2.remove_bridge a c delta).2 else b2)

/-- One candidate value `v` for the chosen edge, i.e. one iteration of the
`for val in sorted(...)` loop of `backtrack`. `prop` is the propagation on
the live board and `bt` the recursive search one level deeper; the
accumulator short-circuits once a branch has succeeded (Python returns
immediately; no further state change happens either way). -/
def tryVal (prop : (Nat → List Int) → List Nat → Board → Option (Nat → List Int))
    (bt : (Nat → List Int) → List Nat → Board → Bool × Board)
    (var : Nat) (a c : Pos) (dom : Nat → List Int) (u : List Nat) :
    Bool × Board → Int → Bool × Board
  | (true, bd), _ => (true, bd)
  | (false, board), v =>
    if v < curK board (pairKey a c) then (false, board)
    else
      if 0 < v - curK board (pairKey a c) then
        let r := board.add_bridge a c (v - curK board (pairKey a c))
        if r.1.1 then
          afterTry prop bt var a c dom u v (v - curK board (pairKey a c)) r.2
        else (false, r.2)
      else afterTry prop bt var a c dom u v (v - curK board (pairKey a c)) board

/-- The recursive search `backtrack`, with fuel bounding the recursion depth.
Every level removes the chosen edge from the unassigned set, so the depth is
at most the number of edges and the fuel passed by `solve_csp` is never
exhausted. Value order is descending (`2, 1, 0`); variable order is MRV with
first-minimum tie-break, or first-unassigned when MRV is off. -/
def backtrack (edges : List (Pos × Pos)) (incident : Pos → List Nat) (useMrv : Bool)
    (pfuel : Nat) :
    Nat → (Nat → List Int) → List Nat → Board → Bool × Board
  | 0, _, _, board => (false, board)
  | fuel + 1, dom, u, board =>
    if u.isEmpty then ((board.full_check).1, board)
    else
      let var := if useMrv then minByKey u (fun i => (dom i).length) else u.headD 0
      let p := edges.getD var ((0, 0), (0, 0))
      let vals := sortDesc (dom var)
      vals.foldl
        (tryVal (fun d uu bd => propagate bd incident pfuel d uu)
          (backtrack edges incident useMrv pfuel fuel) var p.1 p.2 dom u)
        (false, board)

/-- Top-level solver `solve_csp`: build the edge variables, run the initial
propagation, then search. Returns the Python boolean together with the board
as the solver leaves it (the Python method mutates its argument in place). -/
def solve_csp (board : Board) (useMrv : Bool) : Bool × Board :=
  let edges := buildEdges board
  let incident := incidentOf edges
  let n := edges.length
  let dom0 : Nat → List Int := fun _ => [0, 1, 2]
  let u0 := List.range n
  let pfuel := 3 * n + 2
  match propagate board incident pfuel dom0 u0 with
  | none => (false, board)
  | some dom1 => backtrack edges incident useMrv pfuel (n + 1) dom1 u0 board

/-- Union of the corridors of all ledger entries. The code maintains
`occupied_segments` to be exactly this set. -/
def segsOfEntries (l : List ((Pos × Pos) × BridgeInfo)) : Finset Seg :=
  l.foldr (fun e acc => (path_between e.1.1 e.1.2).foldr insert acc) ∅

/-- Two islands on one grid line with nothing but water strictly between:
`f` reads the island index along the line. -/
def lineCorr (f : Nat → Option Int) (s e : Nat) : Prop :=
  s < e ∧ (f s).isSome = true ∧ (f e).isSome = true ∧ ∀ y, s < y → y < e → f y = none

/-- Well-formedness of one ledger entry: endpoints are islands, mutually
visible, the key is the canonical pair, the multiplicity is 1 or 2 and the
cached orientation is the derived one. -/
def EntryOK (b : Board) (e : (Pos × Pos) × BridgeInfo) : Prop :=
  (is_island? b e.1.1).isSome = true ∧ (is_island? b e.1.2).isSome = true ∧
    visible_aligned b e.1.1 e.1.2 = true ∧ pairKey e.1.1 e.1.2 = e.1 ∧
    (e.2.k = 1 ∨ e.2.k = 2) ∧ e.2.dir = orient e.1.1 e.1.2

instance (b : Board) (e : (Pos × Pos) × BridgeInfo) : Decidable (EntryOK b e) := by
  unfold EntryOK; infer_instance

/-- Data-model invariant of a board state (spec §3): well-formed, key-unique
ledger entries, the occupancy set is exactly the union of the active
corridors, and no island exceeds its required degree. It holds for every
state reachable through the validated operations. -/
def Inv (b : Board) : Prop :=
  (b.bridges.map Prod.fst).Nodup ∧
    (∀ e ∈ b.bridges, EntryOK b e) ∧
    b.occupied = segsOfEntries b.bridges ∧
    ∀ pv ∈ islandsOf b, degree b pv.1 ≤ pv.2

instance (b : Board) : Decidable (Inv b) := by
  unfold Inv; infer_instance

/-- Board states reachable from a freshly constructed board by successful
`add_bridge` / `remove_bridge` calls (failed calls leave the state unchanged). -/
inductive Reachable : Board → Prop where
  | fresh (nRows nCols : Int) (grid : List (List Char)) :
      Reachable (Board.make nRows nCols grid)
  | add (b : Board) (a c : Pos) (k : Int) : Reachable b →
      (b.add_bridge a c k).1.1 = true → Reachable (b.add_bridge a c k).2
  | remove (b : Board) (a c : Pos) (k : Int) : Reachable b →
      (b.remove_bridge a c k).1.1 = true → Reachable (b.remove_bridge a c k).2

/-- Spec-side description of the inputs `parse_from_lines` accepts: a header
line containing a comma and reading as exactly two integers, the announced
number of grid lines, each of the announced width, over `'0'..'8'`.
Positivity of the header numbers is not part of it; see the theorems on C7. -/
def WellFormedInput (lines : List String) : Prop :=
  match lines with
  | [] => False
  | l0 :: rest =>
    l0.toList.contains ',' = true ∧
      ∃ rc : Int × Int, parseHeader l0 = some rc ∧ (rest.length : Int) = rc.1 ∧
        ∀ line ∈ rest, (line.length : Int) = rc.2 ∧ ∀ ch ∈ line.toList, '0' ≤ ch ∧ ch ≤ '8'

/-- The 3×3 plus-shaped example board of the specification
(`010 / 101 / 010`). -/
def plusBoard : Board :=
  Board.make 3 3 [['0', '1', '0'], ['1', '0', '1'], ['0', '1', '0']]

/-- Plus board after the successful horizontal `add_bridge((1,0),(1,2),1)`. -/
def plusAfterH : Board :=
  (plusBoard.add_bridge (1, 0) (1, 2) 1).2

/-- Plus board after additionally committing the vertical bridge
`add_bridge((0,1),(2,1),1)` — which the specification says must be rejected. -/
def plusAfterBoth : Board :=
  (plusAfterH.add_bridge (0, 1) (2, 1) 1).2

/-- The 1×2 demonstration board `"1,2" / "11"`. -/
def demoBoard : Board :=
  Board.make 1 2 [['1', '1']]

/-- Demo board with its unique bridge committed. -/
def demoWithBridge : Board :=
  (demoBoard.add_bridge (0, 0) (0, 1) 1).2

/-- An unsolvable 1×2 board (`"1,2" / "12"`): the single edge would have to
carry 1 and 2 bridges at once. -/
def unsolvBoard : Board :=
  Board.make 1 2 [['1', '2']]

/-- Incidence weight of a ledger entry at position `p`, and its list sum:
the degree of `p` is this sum over the ledger. -/
def degList (p : Pos) (l : List ((Pos × Pos) × BridgeInfo)) : Int :=
  (l.map fun e => if p = e.1.1 ∨ p = e.1.2 then e.2.k else 0).sum

theorem dictGet_nil {β : Type} (key : Pos × Pos) : dictGet ([] : List ((Pos × Pos) × β)) key = none :=
  rfl

theorem dictGet_cons {β : Type} (e : (Pos × Pos) × β) (es : List ((Pos × Pos) × β))
    (key : Pos × Pos) :
    dictGet (e :: es) key = if e.1 = key then some e.2 else dictGet es key := by
  by_cases h : e.1 = key <;> simp [dictGet, List.find?_cons, h]

theorem dictGet_eq_none_iff {β : Type} {l : List ((Pos × Pos) × β)} {key : Pos × Pos} :
    dictGet l key = none ↔ ∀ e ∈ l, e.1 ≠ key := by
  induction l with
  | nil => simp [dictGet_nil]
  | cons e es ih =>
    rw [dictGet_cons]
    by_cases h : e.1 = key <;> simp [h, ih]

theorem dictGet_some_mem {β : Type} {l : List ((Pos × Pos) × β)} {key : Pos × Pos} {v : β}
    (h : dictGet l key = some v) : (key, v) ∈ l := by
  induction l with
  | nil => simp [dictGet_nil] at h
  | cons e es ih =>
    rw [dictGet_cons] at h
    by_cases hk : e.1 = key
    · have hv : e.2 = v := by simpa [hk] using h
      have he : (key, v) = e := by
        cases e
        simp_all
      rw [he]
      exact List.mem_cons_self e es
    · simp [hk] at h
      exact List.mem_cons_of_mem _ (ih h)

theorem dictSet_eq_append {β : Type} {l : List ((Pos × Pos) × β)} {key : Pos × Pos} (v : β)
    (h : dictGet l key = none) : dictSet l key v = l ++ [(key, v)] := by
  induction l with
  | nil => rfl
  | cons e es ih =>
    rw [dictGet_cons] at h
    by_cases hk : e.1 = key
    · simp [hk] at h
    · simp [hk] at h
      simp [dictSet, hk, ih h]

theorem dictSet_eq_self {β : Type} {l : List ((Pos × Pos) × β)} {key : Pos × Pos} {v : β}
    (h : dictGet l key = some v) : dictSet l key v = l := by
  induction l with
  | nil => simp [dictGet_nil] at h
  | cons e es ih =>
    rw [dictGet_cons] at h
    by_cases hk : e.1 = key
    · have hv : e.2 = v := by simpa [hk] using h
      have he : (key, v) = e := by
        cases e
        simp_all
      simp [dictSet, hk, he]
    · simp [hk] at h
      simp [dictSet, hk, ih h]

theorem dictGet_dictSet_self {β : Type} (l : List ((Pos × Pos) × β)) (key : Pos × Pos) (v : β) :
    dictGet (dictSet l key v) key = some v := by
  induction l with
  | nil => simp [dictSet, dictGet_cons]
  | cons e es ih =>
    by_cases hk : e.1 = key
    · simp [dictSet, hk, dictGet_cons]
    · simp [dictSet, hk, dictGet_cons, ih]

theorem dictDel_append {β : Type} {l : List ((Pos × Pos) × β)} {key : Pos × Pos} (v : β)
    (h : dictGet l key = none) : dictDel (l ++ [(key, v)]) key = l := by
  induction l with
  | nil => simp [dictDel]
  | cons e es ih =>
    rw [dictGet_cons] at h
    by_cases hk : e.1 = key
    · simp [hk] at h
    · simp [hk] at h
      simp [dictDel, hk, ih h]

theorem map_fst_dictSet_some {β : Type} {l : List ((Pos × Pos) × β)} {key : Pos × Pos} {w : β}
    (v : β) (h : dictGet l key = some w) :
    (dictSet l key v).map Prod.fst = l.map Prod.fst := by
  induction l with
  | nil => simp [dictGet_nil] at h
  | cons e es ih =>
    rw [dictGet_cons] at h
    by_cases hk : e.1 = key
    · simp [dictSet, hk]
    · simp [hk] at h
      simp [dictSet, hk, ih h]

theorem dictDel_sublist {β : Type} (l : List ((Pos × Pos) × β)) (key : Pos × Pos) :
    (dictDel l key).Sublist l := by
  induction l with
  | nil => simp [dictDel]
  | cons e es ih =>
    by_cases hk : e.1 = key
    · have hdel : dictDel (e :: es) key = es := by simp [dictDel, hk]
      rw [hdel]
      exact List.sublist_cons_self e es
    · have hdel : dictDel (e :: es) key = e :: dictDel es key := by simp [dictDel, hk]
      rw [hdel]
      exact List.Sublist.cons₂ e ih

theorem mem_dictSet_iff {β : Type} {l : List ((Pos × Pos) × β)} {key : Pos × Pos} {v : β}
    {e : (Pos × Pos) × β} (hnd : (l.map Prod.fst).Nodup) :
    e ∈ dictSet l key v ↔ e = (key, v) ∨ (e ∈ l ∧ e.1 ≠ key) := by
  induction l with
  | nil => simp [dictSet]
  | cons e0 es ih =>
    simp only [List.map_cons, List.nodup_cons] at hnd
    by_cases hk : e0.1 = key
    · simp only [dictSet, if_pos hk, List.mem_cons]
      constructor
      · rintro (h | h)
        · exact Or.inl h
        · refine Or.inr ⟨Or.inr h, fun hek => hnd.1 ?_⟩
          rw [hk, ← hek]
          exact List.mem_map_of_mem Prod.fst h
      · rintro (h | ⟨(h0 | h0), hne⟩)
        · exact Or.inl h
        · exact absurd (by rw [h0, hk]) hne
        · exact Or.inr h0
    · simp only [dictSet, if_neg hk, List.mem_cons, ih hnd.2]
      constructor
      · rintro (h | h | ⟨hm, hne⟩)
        · exact Or.inr ⟨Or.inl h, by rw [h]; exact hk⟩
        · exact Or.inl h
        · exact Or.inr ⟨Or.inr hm, hne⟩
      · rintro (h | ⟨(h0 | h0), hne⟩)
        · exact Or.inr (Or.inl h)
        · exact Or.inl h0
        · exact Or.inr (Or.inr ⟨h0, hne⟩)

theorem mem_dictDel_iff {β : Type} {l : List ((Pos × Pos) × β)} {key : Pos × Pos}
    {e : (Pos × Pos) × β} (hnd : (l.map Prod.fst).Nodup) :
    e ∈ dictDel l key ↔ e ∈ l ∧ e.1 ≠ key := by
  induction l with
  | nil => simp [dictDel]
  | cons e0 es ih =>
    simp only [List.map_cons, List.nodup_cons] at hnd
    by_cases hk : e0.1 = key
    · simp only [dictDel, if_pos hk, List.mem_cons]
      constructor
      · intro h
        refine ⟨Or.inr h, fun hek => hnd.1 ?_⟩
        rw [hk, ← hek]
        exact List.mem_map_of_mem Prod.fst h
      · rintro ⟨(h0 | h0), hne⟩
        · exact absurd (by rw [h0, hk]) hne
        · exact h0
    · simp only [dictDel, if_neg hk, List.mem_cons, ih hnd.2]
      constructor
      · rintro (h | ⟨hm, hne⟩)
        · exact ⟨Or.inl h, by rw [h]; exact hk⟩
        · exact ⟨Or.inr hm, hne⟩
      · rintro ⟨(h0 | h0), hne⟩
        · exact Or.inl h0
        · exact Or.inr ⟨h0, hne⟩

theorem degList_nil (p : Pos) : degList p [] = 0 :=
  rfl

theorem degList_cons (p : Pos) (e : (Pos × Pos) × BridgeInfo) (l : List ((Pos × Pos) × BridgeInfo)) :
    degList p (e :: l) = (if p = e.1.1 ∨ p = e.1.2 then e.2.k else 0) + degList p l := by
  simp [degList]

theorem degree_foldl_eq {p : Pos} (l : List ((Pos × Pos) × BridgeInfo)) (z : Int) :
    l.foldl
      (fun total e =>
        if e.2.k = 0 then total
        else if p = e.1.1 ∨ p = e.1.2 then total + e.2.k
        else total)
      z = z + degList p l := by
  induction l generalizing z with
  | nil => simp [degList_nil]
  | cons e es ih =>
    rw [List.foldl_cons, ih, degList_cons]
    by_cases hz : e.2.k = 0
    · simp [hz]
    · by_cases hp : p = e.1.1 ∨ p = e.1.2
      · simp only [if_neg hz, if_pos hp]
        ring
      · simp [hz, hp]

theorem degree_eq_degList (b : Board) (p : Pos) : degree b p = degList p b.bridges := by
  have h := degree_foldl_eq (p := p) b.bridges 0
  simpa [degree] using h

theorem degList_append (p : Pos) (l₁ l₂ : List ((Pos × Pos) × BridgeInfo)) :
    degList p (l₁ ++ l₂) = degList p l₁ + degList p l₂ := by
  simp [degList]

theorem degList_dictSet_some {p : Pos} {l : List ((Pos × Pos) × BridgeInfo)} {key : Pos × Pos}
    {w : BridgeInfo} (v : BridgeInfo) (h : dictGet l key = some w) :
    degList p (dictSet l key v) =
      degList p l + (if p = key.1 ∨ p = key.2 then v.k - w.k else 0) := by
  induction l with
  | nil => simp [dictGet_nil] at h
  | cons e es ih =>
    rw [dictGet_cons] at h
    by_cases hk : e.1 = key
    · have hw : e.2 = w := by simpa [hk] using h
      have hset : dictSet (e :: es) key v = (key, v) :: es := by simp [dictSet, hk]
      rw [hset, degList_cons, degList_cons, hk, hw]
      by_cases hp : p = key.1 ∨ p = key.2
      · simp only [if_pos hp]
        ring
      · simp [hp]
    · simp [hk] at h
      have hset : dictSet (e :: es) key v = e :: dictSet es key v := by simp [dictSet, hk]
      rw [hset, degList_cons, degList_cons, ih h]
      ring

theorem degList_dictDel {p : Pos} {l : List ((Pos × Pos) × BridgeInfo)} {key : Pos × Pos}
    {w : BridgeInfo} (h : dictGet l key = some w) :
    degList p (dictDel l key) =
      degList p l - (if p = key.1 ∨ p = key.2 then w.k else 0) := by
  induction l with
  | nil => simp [dictGet_nil] at h
  | cons e es ih =>
    rw [dictGet_cons] at h
    by_cases hk : e.1 = key
    · have hw : e.2 = w := by simpa [hk] using h
      have hdel : dictDel (e :: es) key = es := by simp [dictDel, hk]
      rw [hdel, degList_cons, hk, hw]
      by_cases hp : p = key.1 ∨ p = key.2
      · simp only [if_pos hp]
        ring
      · simp [hp]
    · simp [hk] at h
      have hdel : dictDel (e :: es) key = e :: dictDel es key := by simp [dictDel, hk]
      rw [hdel, degList_cons, degList_cons, ih h]
      ring

theorem mem_foldr_insert (segs : List Seg) (acc : Finset Seg) (s : Seg) :
    s ∈ segs.foldr insert acc ↔ s ∈ segs ∨ s ∈ acc := by
  induction segs with
  | nil => simp
  | cons t ts ih => simp [List.foldr, Finset.mem_insert, ih, or_assoc]

theorem mem_segsOfEntries (l : List ((Pos × Pos) × BridgeInfo)) (s : Seg) :
    s ∈ segsOfEntries l ↔ ∃ e ∈ l, s ∈ path_between e.1.1 e.1.2 := by
  induction l with
  | nil => simp [segsOfEntries]
  | cons e es ih =>
    have : segsOfEntries (e :: es) = (path_between e.1.1 e.1.2).foldr insert (segsOfEntries es) :=
      rfl
    rw [this, mem_foldr_insert, ih]
    simp

theorem islandsOf_set (b : Board) (br : List ((Pos × Pos) × BridgeInfo)) (occ : Finset Seg) :
    islandsOf { b with bridges := br, occupied := occ } = islandsOf b :=
  rfl

theorem is_island?_set (b : Board) (br : List ((Pos × Pos) × BridgeInfo)) (occ : Finset Seg)
    (p : Pos) : is_island? { b with bridges := br, occupied := occ } p = is_island? b p :=
  rfl

theorem visibleNeighbor_set (b : Board) (br : List ((Pos × Pos) × BridgeInfo)) (occ : Finset Seg)
    (p : Pos) (d : Dir) :
    visibleNeighbor { b with bridges := br, occupied := occ } p d = visibleNeighbor b p d := by
  cases d <;> rfl

theorem visible_aligned_set (b : Board) (br : List ((Pos × Pos) × BridgeInfo)) (occ : Finset Seg)
    (a c : Pos) :
    visible_aligned { b with bridges := br, occupied := occ } a c = visible_aligned b a c := by
  unfold visible_aligned
  cases orient a c with
  | none => rfl
  | some o => cases o <;> simp [visibleNeighbor_set]

theorem mem_islandsOf {b : Board} {pv : Pos × Int} :
    pv ∈ islandsOf b ↔
      pv.1.1 < b.nRows.toNat ∧ pv.1.2 < b.nCols.toNat ∧
        (b.cell pv.1.1 pv.1.2).isDigit = true ∧ b.cell pv.1.1 pv.1.2 ≠ '0' ∧
        pv.2 = charVal (b.cell pv.1.1 pv.1.2) := by
  constructor
  · intro h
    simp only [islandsOf, List.mem_flatMap, List.mem_filterMap, List.mem_range] at h
    obtain ⟨r, hr, c, hc, hif⟩ := h
    by_cases hd : (b.cell r c).isDigit = true ∧ b.cell r c ≠ '0'
    · rw [if_pos (by exact_mod_cast hd)] at hif
      have : ((r, c), charVal (b.cell r c)) = pv := by simpa using hif
      rw [← this]
      exact ⟨hr, hc, hd.1, hd.2, rfl⟩
    · rw [if_neg (by exact_mod_cast hd)] at hif
      simp at hif
  · rintro ⟨h1, h2, h3, h4, h5⟩
    simp only [islandsOf, List.mem_flatMap, List.mem_filterMap, List.mem_range]
    refine ⟨pv.1.1, h1, pv.1.2, h2, ?_⟩
    rw [if_pos ⟨h3, h4⟩]
    rw [← h5]

theorem is_island?_eq_some {b : Board} {p : Pos} {v : Int} :
    is_island? b p = some v ↔ (p, v) ∈ islandsOf b := by
  constructor
  · intro h
    unfold is_island? at h
    obtain ⟨e, hfind, hv⟩ :
        ∃ e, (islandsOf b).find? (fun e => decide (e.1 = p)) = some e ∧ e.2 = v := by
      cases hf : (islandsOf b).find? (fun e => decide (e.1 = p)) with
      | none => rw [hf] at h; simp at h
      | some e =>
        rw [hf] at h
        simp at h
        exact ⟨e, rfl, h⟩
    have hp : e.1 = p := by simpa using List.find?_some hfind
    have hm : e ∈ islandsOf b := List.mem_of_find?_eq_some hfind
    have he : e = (p, v) := by
      cases e
      simp_all
    rwa [← he]
  · intro hm
    have hchar := mem_islandsOf.mp hm
    cases hf : (islandsOf b).find? (fun e => decide (e.1 = p)) with
    | none =>
      have := List.find?_eq_none.mp hf _ hm
      simp at this
    | some e =>
      have hp : e.1 = p := by simpa using List.find?_some hf
      have hme : e ∈ islandsOf b := List.mem_of_find?_eq_some hf
      have hce := mem_islandsOf.mp hme
      unfold is_island?
      rw [hf]
      show some e.2 = some v
      rw [hce.2.2.2.2, hp]
      exact congrArg some hchar.2.2.2.2.symm

theorem is_island?_isSome_iff {b : Board} {p : Pos} :
    (is_island? b p).isSome = true ↔
      p.1 < b.nRows.toNat ∧ p.2 < b.nCols.toNat ∧
        (b.cell p.1 p.2).isDigit = true ∧ b.cell p.1 p.2 ≠ '0' := by
  constructor
  · intro h
    obtain ⟨v, hv⟩ := Option.isSome_iff_exists.mp h
    have := mem_islandsOf.mp (is_island?_eq_some.mp hv)
    exact ⟨this.1, this.2.1, this.2.2.1, this.2.2.2.1⟩
  · intro ⟨h1, h2, h3, h4⟩
    have : (p, charVal (b.cell p.1 p.2)) ∈ islandsOf b :=
      mem_islandsOf.mpr ⟨h1, h2, h3, h4, rfl⟩
    rw [is_island?_eq_some.mpr this]
    rfl

theorem islandVal_pos {b : Board} {pv : Pos × Int} (h : pv ∈ islandsOf b) : 1 ≤ pv.2 := by
  have hc := mem_islandsOf.mp h
  rw [hc.2.2.2.2]
  have h3 := hc.2.2.1
  have h4 := hc.2.2.2.1
  unfold charVal
  simp [Char.isDigit] at h3
  obtain ⟨hd1, hd2⟩ := h3
  have hlo : 48 ≤ (b.cell pv.1.1 pv.1.2).toNat := by
    simpa [UInt32.le_def, UInt32.toNat, Char.toNat] using hd1
  have h48 : (b.cell pv.1.1 pv.1.2).toNat ≠ 48 := by
    intro hcn
    apply h4
    apply Char.eq_of_val_eq
    apply UInt32.ext
    simpa [Char.toNat] using hcn
  omega

theorem scanDesc_eq_some {pr : Nat → Bool} {n x : Nat} :
    scanDesc pr n = some x ↔
      x < n ∧ pr x = true ∧ ∀ y, x < y → y < n → pr y = false := by
  induction n with
  | zero => simp [scanDesc]
  | succ m ih =>
    simp only [scanDesc]
    by_cases hm : pr m = true
    · rw [if_pos hm]
      constructor
      · intro h
        have hx : x = m := by simpa using h.symm
        subst hx
        exact ⟨Nat.lt_succ_self x, hm, fun y hy hy' => absurd (by omega : y < y) (Nat.lt_irrefl y)⟩
      · rintro ⟨hx, hpx, hall⟩
        by_cases hxm : x = m
        · rw [hxm]
        · have hlt : x < m := by omega
          have hf := hall m hlt (Nat.lt_succ_self m)
          rw [hm] at hf
          cases hf
    · rw [if_neg hm]
      rw [ih]
      have hm' : pr m = false := by
        cases h : pr m
        · rfl
        · exact absurd h hm
      constructor
      · rintro ⟨hx, hpx, hall⟩
        refine ⟨by omega, hpx, fun y hy hy' => ?_⟩
        by_cases hym : y = m
        · rw [hym, hm']
        · exact hall y hy (by omega)
      · rintro ⟨hx, hpx, hall⟩
        have hxm : x ≠ m := by
          intro hxe
          rw [hxe, hm'] at hpx
          cases hpx
        exact ⟨by omega, hpx, fun y hy hy' => hall y hy (by omega)⟩

theorem scanAscAux_eq_some {pr : Nat → Bool} {f s x : Nat} :
    scanAscAux pr s f = some x ↔
      s ≤ x ∧ x < s + f ∧ pr x = true ∧ ∀ y, s ≤ y → y < x → pr y = false := by
  induction f generalizing s with
  | zero =>
    simp only [scanAscAux]
    constructor
    · intro h
      cases h
    · rintro ⟨h1, h2, _⟩
      omega
  | succ m ih =>
    simp only [scanAscAux]
    by_cases hs : pr s = true
    · rw [if_pos hs]
      constructor
      · intro h
        have hx : x = s := by simpa using h.symm
        subst hx
        exact ⟨le_refl x, by omega, hs, fun y hy hy' => absurd (by omega : y < y) (Nat.lt_irrefl y)⟩
      · rintro ⟨hsx, hxf, hpx, hall⟩
        by_cases hxs : x = s
        · rw [hxs]
        · have hf := hall s (le_refl s) (by omega)
          rw [hs] at hf
          cases hf
    · rw [if_neg hs]
      rw [ih]
      have hs' : pr s = false := by
        cases h : pr s
        · rfl
        · exact absurd h hs
      constructor
      · rintro ⟨hsx, hxf, hpx, hall⟩
        refine ⟨by omega, by omega, hpx, fun y hy hy' => ?_⟩
        by_cases hys : y = s
        · rw [hys, hs']
        · exact hall y (by omega) hy'
      · rintro ⟨hsx, hxf, hpx, hall⟩
        have hxs : x ≠ s := by
          intro hxe
          rw [hxe, hs'] at hpx
          cases hpx
        exact ⟨by omega, by omega, hpx, fun y hy hy' => hall y (by omega) hy'⟩

theorem scanAsc_eq_some {pr : Nat → Bool} {s bound x : Nat} :
    scanAsc pr s bound = some x ↔
      s ≤ x ∧ x < bound ∧ pr x = true ∧ ∀ y, s ≤ y → y < x → pr y = false := by
  unfold scanAsc
  rw [scanAscAux_eq_some]
  constructor
  · rintro ⟨h1, h2, h3, h4⟩
    exact ⟨h1, by omega, h3, h4⟩
  · rintro ⟨h1, h2, h3, h4⟩
    exact ⟨h1, by omega, h3, h4⟩

theorem isSome_false_eq_none {α : Type} {o : Option α} (h : o.isSome = false) : o = none := by
  cases o
  · rfl
  · simp at h

theorem visR_eq_some {b : Board} {a q : Pos} :
    visibleNeighbor b a .R = some q ↔
      q.1 = a.1 ∧ a.2 < q.2 ∧ q.2 < b.nCols.toNat ∧ (is_island? b q).isSome = true ∧
        ∀ cc, a.2 < cc → cc < q.2 → is_island? b (a.1, cc) = none := by
  constructor
  · intro h
    unfold visibleNeighbor at h
    obtain ⟨cc, hsc, hq⟩ :
        ∃ cc, scanAsc (fun cc => (is_island? b (a.1, cc)).isSome) (a.2 + 1) b.nCols.toNat =
          some cc ∧ q = (a.1, cc) := by
      cases hf : scanAsc (fun cc => (is_island? b (a.1, cc)).isSome) (a.2 + 1) b.nCols.toNat with
      | none => rw [hf] at h; simp at h
      | some cc =>
        rw [hf] at h
        simp at h
        exact ⟨cc, rfl, h.symm⟩
    rw [scanAsc_eq_some] at hsc
    obtain ⟨h1, h2, h3, h4⟩ := hsc
    subst hq
    refine ⟨rfl, by omega, h2, h3, fun c hc hc' => ?_⟩
    exact isSome_false_eq_none (h4 c (by omega) (by simpa using hc'))
  · rintro ⟨h1, h2, h3, h4, h5⟩
    obtain ⟨q1, q2⟩ := q
    simp only at h1 h2 h3 h4 ⊢
    subst h1
    unfold visibleNeighbor
    have hsc :
        scanAsc (fun cc => (is_island? b (a.1, cc)).isSome) (a.2 + 1) b.nCols.toNat = some q2 := by
      rw [scanAsc_eq_some]
      refine ⟨by omega, h3, h4, fun y hy hy' => ?_⟩
      simp [h5 y (by omega) hy']
    rw [hsc]
    rfl

theorem visL_eq_some {b : Board} {a q : Pos} :
    visibleNeighbor b a .L = some q ↔
      q.1 = a.1 ∧ q.2 < a.2 ∧ (is_island? b q).isSome = true ∧
        ∀ cc, q.2 < cc → cc < a.2 → is_island? b (a.1, cc) = none := by
  constructor
  · intro h
    unfold visibleNeighbor at h
    obtain ⟨cc, hsc, hq⟩ :
        ∃ cc, scanDesc (fun cc => (is_island? b (a.1, cc)).isSome) a.2 = some cc ∧
          q = (a.1, cc) := by
      cases hf : scanDesc (fun cc => (is_island? b (a.1, cc)).isSome) a.2 with
      | none => rw [hf] at h; simp at h
      | some cc =>
        rw [hf] at h
        simp at h
        exact ⟨cc, rfl, h.symm⟩
    rw [scanDesc_eq_some] at hsc
    obtain ⟨h1, h2, h3⟩ := hsc
    subst hq
    refine ⟨rfl, h1, h2, fun c hc hc' => ?_⟩
    exact isSome_false_eq_none (h3 c (by simpa using hc) hc')
  · rintro ⟨h1, h2, h3, h4⟩
    obtain ⟨q1, q2⟩ := q
    simp only at h1 h2 h3 ⊢
    subst h1
    unfold visibleNeighbor
    have hsc : scanDesc (fun cc => (is_island? b (a.1, cc)).isSome) a.2 = some q2 := by
      rw [scanDesc_eq_some]
      refine ⟨h2, h3, fun y hy hy' => ?_⟩
      simp [h4 y hy hy']
    rw [hsc]
    rfl

theorem visD_eq_some {b : Board} {a q : Pos} :
    visibleNeighbor b a .D = some q ↔
      q.2 = a.2 ∧ a.1 < q.1 ∧ q.1 < b.nRows.toNat ∧ (is_island? b q).isSome = true ∧
        ∀ rr, a.1 < rr → rr < q.1 → is_island? b (rr, a.2) = none := by
  constructor
  · intro h
    unfold visibleNeighbor at h
    obtain ⟨rr, hsc, hq⟩ :
        ∃ rr, scanAsc (fun rr => (is_island? b (rr, a.2)).isSome) (a.1 + 1) b.nRows.toNat =
          some rr ∧ q = (rr, a.2) := by
      cases hf : scanAsc (fun rr => (is_island? b (rr, a.2)).isSome) (a.1 + 1) b.nRows.toNat with
      | none => rw [hf] at h; simp at h
      | some rr =>
        rw [hf] at h
        simp at h
        exact ⟨rr, rfl, h.symm⟩
    rw [scanAsc_eq_some] at hsc
    obtain ⟨h1, h2, h3, h4⟩ := hsc
    subst hq
    refine ⟨rfl, by omega, h2, h3, fun r hr hr' => ?_⟩
    exact isSome_false_eq_none (h4 r (by omega) (by simpa using hr'))
  · rintro ⟨h1, h2, h3, h4, h5⟩
    obtain ⟨q1, q2⟩ := q
    simp only at h1 h2 h3 h4 ⊢
    subst h1
    unfold visibleNeighbor
    have hsc :
        scanAsc (fun rr => (is_island? b (rr, a.2)).isSome) (a.1 + 1) b.nRows.toNat = some q1 := by
      rw [scanAsc_eq_some]
      refine ⟨by omega, h3, h4, fun y hy hy' => ?_⟩
      simp [h5 y (by omega) hy']
    rw [hsc]
    rfl

theorem visU_eq_some {b : Board} {a q : Pos} :
    visibleNeighbor b a .U = some q ↔
      q.2 = a.2 ∧ q.1 < a.1 ∧ (is_island? b q).isSome = true ∧
        ∀ rr, q.1 < rr → rr < a.1 → is_island? b (rr, a.2) = none := by
  constructor
  · intro h
    unfold visibleNeighbor at h
    obtain ⟨rr, hsc, hq⟩ :
        ∃ rr, scanDesc (fun rr => (is_island? b (rr, a.2)).isSome) a.1 = some rr ∧
          q = (rr, a.2) := by
      cases hf : scanDesc (fun rr => (is_island? b (rr, a.2)).isSome) a.1 with
      | none => rw [hf] at h; simp at h
      | some rr =>
        rw [hf] at h
        simp at h
        exact ⟨rr, rfl, h.symm⟩
    rw [scanDesc_eq_some] at hsc
    obtain ⟨h1, h2, h3⟩ := hsc
    subst hq
    refine ⟨rfl, h1, h2, fun r hr hr' => ?_⟩
    exact isSome_false_eq_none (h3 r (by simpa using hr) hr')
  · rintro ⟨h1, h2, h3, h4⟩
    obtain ⟨q1, q2⟩ := q
    simp only at h1 h2 h3 ⊢
    subst h1
    unfold visibleNeighbor
    have hsc : scanDesc (fun rr => (is_island? b (rr, a.2)).isSome) a.1 = some q1 := by
      rw [scanDesc_eq_some]
      refine ⟨h2, h3, fun y hy hy' => ?_⟩
      simp [h4 y hy hy']
    rw [hsc]
    rfl

theorem visible_aligned_eq (b : Board) (a c : Pos) :
    visible_aligned b a c =
      if a.1 = c.1 then
        (if a.2 < c.2 then decide (visibleNeighbor b a .R = some c)
         else decide (visibleNeighbor b a .L = some c))
      else if a.2 = c.2 then
        (if a.1 < c.1 then decide (visibleNeighbor b a .D = some c)
         else decide (visibleNeighbor b a .U = some c))
      else false := by
  unfold visible_aligned orient
  by_cases h11 : a.1 = c.1
  · simp [h11]
  · by_cases h22 : a.2 = c.2 <;> simp [h11, h22]

theorem visible_aligned_true_symm {b : Board} {a c : Pos}
    (ha : (is_island? b a).isSome = true) (h : visible_aligned b a c = true) :
    visible_aligned b c a = true := by
  rw [visible_aligned_eq] at h
  rw [visible_aligned_eq]
  by_cases h11 : a.1 = c.1
  · rw [if_pos h11] at h
    rw [if_pos h11.symm]
    by_cases hlt : a.2 < c.2
    · rw [if_pos hlt] at h
      have hR := visR_eq_some.mp (by simpa using h)
      have hnlt : ¬ c.2 < a.2 := by omega
      rw [if_neg hnlt]
      simp only [decide_eq_true_eq]
      rw [visL_eq_some]
      refine ⟨h11, hlt, ha, fun cc hcc hcc' => ?_⟩
      have hn := hR.2.2.2.2 cc hcc hcc'
      rwa [h11] at hn
    · rw [if_neg hlt] at h
      have hL := visL_eq_some.mp (by simpa using h)
      have hlt' : c.2 < a.2 := hL.2.1
      rw [if_pos hlt']
      simp only [decide_eq_true_eq]
      rw [visR_eq_some]
      have hbound : a.2 < b.nCols.toNat := (is_island?_isSome_iff.mp ha).2.1
      refine ⟨h11, hlt', hbound, ha, fun cc hcc hcc' => ?_⟩
      have hn := hL.2.2.2 cc hcc hcc'
      rwa [h11] at hn
  · rw [if_neg h11] at h
    have h11' : ¬ c.1 = a.1 := fun hx => h11 hx.symm
    rw [if_neg h11']
    by_cases h22 : a.2 = c.2
    · rw [if_pos h22] at h
      rw [if_pos h22.symm]
      by_cases hlt : a.1 < c.1
      · rw [if_pos hlt] at h
        have hD := visD_eq_some.mp (by simpa using h)
        have hnlt : ¬ c.1 < a.1 := by omega
        rw [if_neg hnlt]
        simp only [decide_eq_true_eq]
        rw [visU_eq_some]
        refine ⟨h22, hlt, ha, fun rr hrr hrr' => ?_⟩
        have hn := hD.2.2.2.2 rr hrr hrr'
        rwa [h22] at hn
      · rw [if_neg hlt] at h
        have hU := visU_eq_some.mp (by simpa using h)
        have hlt' : c.1 < a.1 := hU.2.1
        rw [if_pos hlt']
        simp only [decide_eq_true_eq]
        rw [visD_eq_some]
        have hbound : a.1 < b.nRows.toNat := (is_island?_isSome_iff.mp ha).1
        refine ⟨h22, hlt', hbound, ha, fun rr hrr hrr' => ?_⟩
        have hn := hU.2.2.2 rr hrr hrr'
        rwa [h22] at hn
    · rw [if_neg h22] at h
      cases h

theorem visible_aligned_symm {b : Board} {a c : Pos}
    (ha : (is_island? b a).isSome = true) (hc : (is_island? b c).isSome = true) :
    visible_aligned b a c = visible_aligned b c a := by
  cases h1 : visible_aligned b a c with
  | true => exact (visible_aligned_true_symm ha h1).symm
  | false =>
    cases h2 : visible_aligned b c a with
    | true =>
      have h3 := visible_aligned_true_symm hc h2
      rw [h1] at h3
      exact h3
    | false => rfl

theorem orient_symm (a c : Pos) : orient a c = orient c a := by
  unfold orient
  by_cases h1 : a.1 = c.1
  · rw [if_pos h1, if_pos h1.symm]
  · by_cases h2 : a.2 = c.2
    · rw [if_neg h1, if_pos h2, if_neg (show ¬ c.1 = a.1 from fun h => h1 h.symm),
        if_pos h2.symm]
    · rw [if_neg h1, if_neg h2, if_neg (show ¬ c.1 = a.1 from fun h => h1 h.symm),
        if_neg (show ¬ c.2 = a.2 from fun h => h2 h.symm)]

theorem path_between_symm (a c : Pos) : path_between a c = path_between c a := by
  unfold path_between
  by_cases h1 : a.1 = c.1
  · rw [if_pos h1, if_pos h1.symm, Nat.min_comm a.2 c.2, Nat.max_comm a.2 c.2, h1]
  · by_cases h2 : a.2 = c.2
    · rw [if_neg h1, if_pos h2, if_neg (show ¬ c.1 = a.1 from fun h => h1 h.symm),
        if_pos h2.symm, Nat.min_comm a.1 c.1, Nat.max_comm a.1 c.1, h2]
    · rw [if_neg h1, if_neg h2, if_neg (show ¬ c.1 = a.1 from fun h => h1 h.symm),
        if_neg (show ¬ c.2 = a.2 from fun h => h2 h.symm)]

theorem posLe_antisymm {a c : Pos} (h1 : posLe a c = true) (h2 : posLe c a = true) : a = c := by
  obtain ⟨a1, a2⟩ := a
  obtain ⟨c1, c2⟩ := c
  simp [posLe] at h1 h2
  have : a1 = c1 ∧ a2 = c2 := by omega
  simp [this.1, this.2]

theorem posLe_of_not {a c : Pos} (h : ¬ posLe a c = true) : posLe c a = true := by
  obtain ⟨a1, a2⟩ := a
  obtain ⟨c1, c2⟩ := c
  simp [posLe] at h ⊢
  omega

theorem pairKey_symm (a c : Pos) : pairKey a c = pairKey c a := by
  unfold pairKey
  by_cases h1 : posLe a c = true
  · by_cases h2 : posLe c a = true
    · rw [if_pos h1, if_pos h2, posLe_antisymm h1 h2]
    · rw [if_pos h1, if_neg h2]
  · rw [if_neg h1, if_pos (posLe_of_not h1)]

theorem pairKey_cases (a c : Pos) : pairKey a c = (a, c) ∨ pairKey a c = (c, a) := by
  unfold pairKey
  by_cases h : posLe a c = true
  · left
    rw [if_pos h]
  · right
    rw [if_neg h]

theorem pairKey_pairKey (a c : Pos) :
    pairKey (pairKey a c).1 (pairKey a c).2 = pairKey a c := by
  rcases pairKey_cases a c with h | h <;> rw [h]
  · exact h
  · show pairKey c a = (c, a)
    rw [pairKey_symm c a]
    exact h

theorem path_between_key (a c : Pos) :
    path_between (pairKey a c).1 (pairKey a c).2 = path_between a c := by
  rcases pairKey_cases a c with h | h <;> rw [h]
  exact path_between_symm c a

theorem orient_key (a c : Pos) :
    orient (pairKey a c).1 (pairKey a c).2 = orient a c := by
  rcases pairKey_cases a c with h | h <;> rw [h]
  exact orient_symm c a

theorem pairKey_same_row {r x y : Nat} :
    pairKey (r, x) (r, y) = ((r, min x y), (r, max x y)) := by
  unfold pairKey posLe
  by_cases h : x ≤ y
  · rw [if_pos (by simp [h])]
    simp [Nat.min_def, Nat.max_def, h]
  · rw [if_neg (by simp [h])]
    simp [Nat.min_def, Nat.max_def, h]

theorem pairKey_same_col {cc x y : Nat} :
    pairKey (x, cc) (y, cc) = ((min x y, cc), (max x y, cc)) := by
  unfold pairKey posLe
  by_cases hlt : x < y
  · rw [if_pos (by simp [hlt])]
    simp [Nat.min_def, Nat.max_def, Nat.le_of_lt hlt]
  · by_cases heq : x = y
    · subst heq
      rw [if_pos (by simp)]
      simp [Nat.min_def, Nat.max_def]
    · rw [if_neg (by simp [hlt, heq])]
      have hge : y ≤ x := by omega
      have : ¬ x ≤ y := by omega
      simp [Nat.min_def, Nat.max_def, this]

theorem pairKey_eq_of_row {a c : Pos} (h : a.1 = c.1) :
    pairKey a c = ((a.1, min a.2 c.2), (a.1, max a.2 c.2)) := by
  obtain ⟨x1, y1⟩ := a
  obtain ⟨x2, y2⟩ := c
  simp only at h
  subst h
  exact pairKey_same_row

theorem pairKey_eq_of_col {a c : Pos} (h : a.2 = c.2) :
    pairKey a c = ((min a.1 c.1, a.2), (max a.1 c.1, a.2)) := by
  obtain ⟨x1, y1⟩ := a
  obtain ⟨x2, y2⟩ := c
  simp only at h
  subst h
  exact pairKey_same_col

theorem mem_path_between_H {a c : Pos} (h : a.1 = c.1) {s : Seg} :
    s ∈ path_between a c ↔
      ∃ cc, min a.2 c.2 ≤ cc ∧ cc < max a.2 c.2 ∧ s = (Orient.H, a.1, cc) := by
  unfold path_between
  rw [if_pos h]
  simp only [List.mem_map, List.mem_range'_1]
  constructor
  · rintro ⟨cc, ⟨hc1, hc2⟩, hs⟩
    exact ⟨cc, hc1, by omega, hs.symm⟩
  · rintro ⟨cc, hc1, hc2, hs⟩
    exact ⟨cc, ⟨hc1, by omega⟩, hs.symm⟩

theorem mem_path_between_V {a c : Pos} (h1 : ¬ a.1 = c.1) (h2 : a.2 = c.2) {s : Seg} :
    s ∈ path_between a c ↔
      ∃ rr, min a.1 c.1 ≤ rr ∧ rr < max a.1 c.1 ∧ s = (Orient.V, rr, a.2) := by
  unfold path_between
  rw [if_neg h1, if_pos h2]
  simp only [List.mem_map, List.mem_range'_1]
  constructor
  · rintro ⟨rr, ⟨hr1, hr2⟩, hs⟩
    exact ⟨rr, hr1, by omega, hs.symm⟩
  · rintro ⟨rr, hr1, hr2, hs⟩
    exact ⟨rr, ⟨hr1, by omega⟩, hs.symm⟩

theorem visible_aligned_corridor {b : Board} {a c : Pos}
    (ha : (is_island? b a).isSome = true) (h : visible_aligned b a c = true) :
    (a.1 = c.1 ∧ ¬ a.2 = c.2 ∧
        lineCorr (fun y => is_island? b (a.1, y)) (min a.2 c.2) (max a.2 c.2)) ∨
      (¬ a.1 = c.1 ∧ a.2 = c.2 ∧
        lineCorr (fun y => is_island? b (y, a.2)) (min a.1 c.1) (max a.1 c.1)) := by
  rw [visible_aligned_eq] at h
  by_cases h11 : a.1 = c.1
  · rw [if_pos h11] at h
    left
    by_cases hlt : a.2 < c.2
    · rw [if_pos hlt] at h
      have hR := visR_eq_some.mp (by simpa using h)
      refine ⟨h11, by omega, ?_⟩
      have hmin : min a.2 c.2 = a.2 := by omega
      have hmax : max a.2 c.2 = c.2 := by omega
      rw [hmin, hmax]
      refine ⟨hlt, ha, ?_, hR.2.2.2.2⟩
      have hcc : ((a.1 : Nat), c.2) = c := by rw [← hR.1]
      show (is_island? b (a.1, c.2)).isSome = true
      rw [hcc]
      exact hR.2.2.2.1
    · rw [if_neg hlt] at h
      have hL := visL_eq_some.mp (by simpa using h)
      have hlt' : c.2 < a.2 := hL.2.1
      refine ⟨h11, by omega, ?_⟩
      have hmin : min a.2 c.2 = c.2 := by omega
      have hmax : max a.2 c.2 = a.2 := by omega
      rw [hmin, hmax]
      refine ⟨hlt', ?_, ha, hL.2.2.2⟩
      have hcc : ((a.1 : Nat), c.2) = c := by rw [← hL.1]
      show (is_island? b (a.1, c.2)).isSome = true
      rw [hcc]
      exact hL.2.2.1
  · rw [if_neg h11] at h
    by_cases h22 : a.2 = c.2
    · rw [if_pos h22] at h
      right
      by_cases hlt : a.1 < c.1
      · rw [if_pos hlt] at h
        have hD := visD_eq_some.mp (by simpa using h)
        refine ⟨h11, h22, ?_⟩
        have hmin : min a.1 c.1 = a.1 := by omega
        have hmax : max a.1 c.1 = c.1 := by omega
        rw [hmin, hmax]
        refine ⟨hlt, ha, ?_, hD.2.2.2.2⟩
        have hcc : ((c.1 : Nat), a.2) = c := by rw [← hD.1]
        show (is_island? b (c.1, a.2)).isSome = true
        rw [hcc]
        exact hD.2.2.2.1
      · rw [if_neg hlt] at h
        have hU := visU_eq_some.mp (by simpa using h)
        have hlt' : c.1 < a.1 := hU.2.1
        refine ⟨h11, h22, ?_⟩
        have hmin : min a.1 c.1 = c.1 := by omega
        have hmax : max a.1 c.1 = a.1 := by omega
        rw [hmin, hmax]
        refine ⟨hlt', ?_, ha, hU.2.2.2⟩
        have hcc : ((c.1 : Nat), a.2) = c := by rw [← hU.1]
        show (is_island? b (c.1, a.2)).isSome = true
        rw [hcc]
        exact hU.2.2.1
    · rw [if_neg h22] at h
      cases h

theorem lineCorr_overlap {f : Nat → Option Int} {s1 e1 s2 e2 y : Nat}
    (h1 : lineCorr f s1 e1) (h2 : lineCorr f s2 e2)
    (hne : ¬(s1 = s2 ∧ e1 = e2)) (hy1 : s1 ≤ y) (hy1' : y < e1) (hy2 : s2 ≤ y)
    (hy2' : y < e2) : False := by
  obtain ⟨hlt1, hfs1, hfe1, hbet1⟩ := h1
  obtain ⟨hlt2, hfs2, hfe2, hbet2⟩ := h2
  rcases Nat.lt_trichotomy s1 s2 with h | h | h
  · have hn := hbet1 s2 h (by omega)
    rw [hn] at hfs2
    simp at hfs2
  · rcases Nat.lt_trichotomy e1 e2 with he | he | he
    · have hn := hbet2 e1 (by omega) he
      rw [hn] at hfe1
      simp at hfe1
    · exact hne ⟨h, he⟩
    · have hn := hbet1 e2 (by omega) he
      rw [hn] at hfe2
      simp at hfe2
  · have hn := hbet2 s1 h (by omega)
    rw [hn] at hfs1
    simp at hfs1

theorem corridor_disjoint {b : Board} {a1 c1 a2 c2 : Pos}
    (ha1 : (is_island? b a1).isSome = true) (ha2 : (is_island? b a2).isSome = true)
    (h1 : visible_aligned b a1 c1 = true) (h2 : visible_aligned b a2 c2 = true)
    (hne : pairKey a1 c1 ≠ pairKey a2 c2) {s : Seg}
    (hs1 : s ∈ path_between a1 c1) (hs2 : s ∈ path_between a2 c2) : False := by
  rcases visible_aligned_corridor ha1 h1 with ⟨hr1, hcne1, hc1⟩ | ⟨hr1, heq1, hc1⟩ <;>
    rcases visible_aligned_corridor ha2 h2 with ⟨hr2, hcne2, hc2⟩ | ⟨hr2, heq2, hc2⟩
  · rw [mem_path_between_H hr1] at hs1
    rw [mem_path_between_H hr2] at hs2
    obtain ⟨cc, hm1, hM1, hseq1⟩ := hs1
    obtain ⟨cc', hm2, hM2, hseq2⟩ := hs2
    rw [hseq1] at hseq2
    have hrow : a1.1 = a2.1 := by simpa using congrArg (fun t => t.2.1) hseq2
    have hcc : cc = cc' := by simpa using congrArg (fun t => t.2.2) hseq2
    subst hcc
    rw [← hrow] at hc2
    refine lineCorr_overlap hc1 hc2 (fun hmm => hne ?_) hm1 hM1 hm2 hM2
    rw [pairKey_eq_of_row hr1, pairKey_eq_of_row hr2, hrow, hmm.1, hmm.2]
  · rw [mem_path_between_H hr1] at hs1
    rw [mem_path_between_V hr2 heq2] at hs2
    obtain ⟨cc, hm1, hM1, hseq1⟩ := hs1
    obtain ⟨rr, hm2, hM2, hseq2⟩ := hs2
    rw [hseq1] at hseq2
    exact Orient.noConfusion (congrArg (fun t => t.1) hseq2)
  · rw [mem_path_between_V hr1 heq1] at hs1
    rw [mem_path_between_H hr2] at hs2
    obtain ⟨rr, hm1, hM1, hseq1⟩ := hs1
    obtain ⟨cc, hm2, hM2, hseq2⟩ := hs2
    rw [hseq1] at hseq2
    exact Orient.noConfusion (congrArg (fun t => t.1) hseq2)
  · rw [mem_path_between_V hr1 heq1] at hs1
    rw [mem_path_between_V hr2 heq2] at hs2
    obtain ⟨rr, hm1, hM1, hseq1⟩ := hs1
    obtain ⟨rr', hm2, hM2, hseq2⟩ := hs2
    rw [hseq1] at hseq2
    have hcol : a1.2 = a2.2 := by simpa using congrArg (fun t => t.2.2) hseq2
    have hrr : rr = rr' := by simpa using congrArg (fun t => t.2.1) hseq2
    subst hrr
    rw [← hcol] at hc2
    refine lineCorr_overlap hc1 hc2 (fun hmm => hne ?_) hm1 hM1 hm2 hM2
    rw [pairKey_eq_of_col heq1, pairKey_eq_of_col heq2, hcol, hmm.1, hmm.2]

theorem not_isNone_isSome {α : Type} {o : Option α} (h : ¬ o.isNone = true) : o.isSome = true := by
  cases o <;> simp_all

theorem bool_not_true {x : Bool} (h : ¬ x = true) : x = false := by
  cases x
  · rfl
  · exact absurd rfl h

theorem EntryOK_set {b : Board} {br : List ((Pos × Pos) × BridgeInfo)} {occ : Finset Seg}
    {e : (Pos × Pos) × BridgeInfo} :
    EntryOK { b with bridges := br, occupied := occ } e ↔ EntryOK b e := by
  unfold EntryOK
  simp only [is_island?_set, visible_aligned_set]

theorem degree_set (b : Board) (br : List ((Pos × Pos) × BridgeInfo)) (occ : Finset Seg)
    (p : Pos) : degree { b with bridges := br, occupied := occ } p = degList p br :=
  degree_eq_degList _ p

theorem curK_eq_of_get_some {b : Board} {key : Pos × Pos} {w : BridgeInfo}
    (h : dictGet b.bridges key = some w) : curK b key = w.k := by
  unfold curK
  rw [h]

theorem curK_eq_of_get_none {b : Board} {key : Pos × Pos}
    (h : dictGet b.bridges key = none) : curK b key = 0 := by
  unfold curK
  rw [h]

theorem entry_eq_of_get {β : Type} {l : List ((Pos × Pos) × β)} {key : Pos × Pos} {w : β}
    (hnd : (l.map Prod.fst).Nodup) (hget : dictGet l key = some w) {e : (Pos × Pos) × β}
    (he : e ∈ l) (hek : e.1 = key) : e = (key, w) := by
  induction l with
  | nil => cases he
  | cons e0 es ih =>
    simp only [List.map_cons, List.nodup_cons] at hnd
    rw [dictGet_cons] at hget
    rcases List.mem_cons.mp he with h | h
    · subst h
      rw [if_pos hek] at hget
      have hw : e.2 = w := by simpa using hget
      cases e
      simp_all
    · by_cases hk : e0.1 = key
      · exfalso
        apply hnd.1
        rw [hk, ← hek]
        exact List.mem_map_of_mem Prod.fst h
      · rw [if_neg hk] at hget
        exact ih hnd.2 hget h

theorem key_not_mem_of_get_none {β : Type} {l : List ((Pos × Pos) × β)} {key : Pos × Pos}
    (h : dictGet l key = none) : key ∉ l.map Prod.fst := by
  intro hmem
  obtain ⟨e, he, hek⟩ := List.mem_map.mp hmem
  exact dictGet_eq_none_iff.mp h e he hek

theorem visible_aligned_key {b : Board} {a c : Pos} (ha : (is_island? b a).isSome = true)
    (h : visible_aligned b a c = true) :
    visible_aligned b (pairKey a c).1 (pairKey a c).2 = true := by
  rcases pairKey_cases a c with hk | hk <;> rw [hk]
  · exact h
  · exact visible_aligned_true_symm ha h

theorem islands_key {b : Board} {a c : Pos} (ha : (is_island? b a).isSome = true)
    (hc : (is_island? b c).isSome = true) :
    (is_island? b (pairKey a c).1).isSome = true ∧
      (is_island? b (pairKey a c).2).isSome = true := by
  rcases pairKey_cases a c with hk | hk <;> rw [hk]
  · exact ⟨ha, hc⟩
  · exact ⟨hc, ha⟩

theorem is_island?_getD_eq {b : Board} {pv : Pos × Int} (h : pv ∈ islandsOf b) :
    (is_island? b pv.1).getD 0 = pv.2 := by
  have hs : is_island? b pv.1 = some pv.2 := is_island?_eq_some.mpr (by simpa using h)
  rw [hs]
  rfl

theorem can_add_true {b : Board} {a c : Pos} {k : Int}
    (h : (b.can_add_bridge a c k).1 = true) :
    (is_island? b a).isSome = true ∧ (is_island? b c).isSome = true ∧ (k = 1 ∨ k = 2) ∧
      visible_aligned b a c = true ∧ curK b (pairKey a c) + k ≤ 2 ∧
      crossing_if_add b a c = false ∧
      degree b a + k ≤ (is_island? b a).getD 0 ∧ degree b c + k ≤ (is_island? b c).getD 0 := by
  unfold Board.can_add_bridge at h
  split_ifs at h with h1 h2 h3 h4 h5 h6 h7
  any_goals simp at h
  exact ⟨not_isNone_isSome (fun hx => h1 (Or.inl hx)),
    not_isNone_isSome (fun hx => h1 (Or.inr hx)), h2, h3,
    by omega, bool_not_true h5, by omega, by omega⟩

theorem can_remove_true {b : Board} {a c : Pos} {k : Int}
    (h : (b.can_remove_bridge a c k).1 = true) :
    (is_island? b a).isSome = true ∧ (is_island? b c).isSome = true ∧ (k = 1 ∨ k = 2) ∧
      ∃ w, dictGet b.bridges (pairKey a c) = some w ∧ k ≤ w.k := by
  unfold Board.can_remove_bridge at h
  split_ifs at h with h1 h2
  cases hget : dictGet b.bridges (pairKey a c) with
  | none =>
    rw [hget] at h
    simp at h
  | some w =>
    rw [hget] at h
    simp at h
    by_cases hk : w.k < k
    · rw [if_pos hk] at h
      simp at h
    · exact ⟨not_isNone_isSome (fun hx => h1 (Or.inl hx)),
        not_isNone_isSome (fun hx => h1 (Or.inr hx)), h2, w, rfl, by omega⟩

theorem add_bridge_eq_of_can {b : Board} {a c : Pos} {k : Int}
    (h : (b.can_add_bridge a c k).1 = true) :
    b.add_bridge a c k =
      ((true, "Puente agregado."),
        { b with
            bridges := dictSet b.bridges (pairKey a c)
              ⟨((dictGet b.bridges (pairKey a c)).getD ⟨0, orient a c⟩).k + k, orient a c⟩,
            occupied := (path_between a c).foldl (fun s seg => insert seg s) b.occupied }) := by
  simp only [Board.add_bridge]
  rw [if_pos h]

theorem add_bridge_eq_of_not {b : Board} {a c : Pos} {k : Int}
    (h : ¬ (b.can_add_bridge a c k).1 = true) :
    b.add_bridge a c k = ((false, (b.can_add_bridge a c k).2), b) := by
  simp only [Board.add_bridge]
  rw [if_neg h]

theorem add_bridge_true_can {b : Board} {a c : Pos} {k : Int}
    (h : (b.add_bridge a c k).1.1 = true) : (b.can_add_bridge a c k).1 = true := by
  by_cases hc : (b.can_add_bridge a c k).1 = true
  · exact hc
  · rw [add_bridge_eq_of_not hc] at h
    simp at h

theorem add_bridge_fail_frame {b : Board} {a c : Pos} {k : Int}
    (h : (b.add_bridge a c k).1.1 = false) : (b.add_bridge a c k).2 = b := by
  by_cases hc : (b.can_add_bridge a c k).1 = true
  · rw [add_bridge_eq_of_can hc] at h
    simp at h
  · rw [add_bridge_eq_of_not hc]

theorem remove_bridge_eq_zero {b : Board} {a c : Pos} {k : Int}
    (hcan : (b.can_remove_bridge a c k).1 = true) {w : BridgeInfo}
    (hget : dictGet b.bridges (pairKey a c) = some w) (hz : w.k - k = 0) :
    b.remove_bridge a c k =
      ((true, "Puente quitado."),
        { b with
            bridges := dictDel b.bridges (pairKey a c),
            occupied := (path_between a c).foldl (fun s seg => s.erase seg) b.occupied }) := by
  simp only [Board.remove_bridge]
  rw [if_pos hcan, hget]
  simp only [Option.getD_some]
  rw [if_pos hz]

theorem remove_bridge_eq_pos {b : Board} {a c : Pos} {k : Int}
    (hcan : (b.can_remove_bridge a c k).1 = true) {w : BridgeInfo}
    (hget : dictGet b.bridges (pairKey a c) = some w) (hz : ¬ w.k - k = 0) :
    b.remove_bridge a c k =
      ((true, "Puente quitado."),
        { b with bridges := dictSet b.bridges (pairKey a c) ⟨w.k - k, w.dir⟩ }) := by
  simp only [Board.remove_bridge]
  rw [if_pos hcan, hget]
  simp only [Option.getD_some]
  rw [if_neg hz]

theorem remove_bridge_eq_of_not {b : Board} {a c : Pos} {k : Int}
    (h : ¬ (b.can_remove_bridge a c k).1 = true) :
    b.remove_bridge a c k = ((false, (b.can_remove_bridge a c k).2), b) := by
  simp only [Board.remove_bridge]
  rw [if_neg h]

theorem remove_bridge_true_can {b : Board} {a c : Pos} {k : Int}
    (h : (b.remove_bridge a c k).1.1 = true) : (b.can_remove_bridge a c k).1 = true := by
  by_cases hc : (b.can_remove_bridge a c k).1 = true
  · exact hc
  · rw [remove_bridge_eq_of_not hc] at h
    simp at h

theorem mem_foldl_insert (segs : List Seg) (acc : Finset Seg) (s : Seg) :
    s ∈ segs.foldl (fun st seg => insert seg st) acc ↔ s ∈ segs ∨ s ∈ acc := by
  induction segs generalizing acc with
  | nil => simp
  | cons t ts ih =>
    rw [List.foldl_cons, ih]
    simp only [List.mem_cons, Finset.mem_insert]
    tauto

theorem foldl_insert_of_subset (segs : List Seg) (acc : Finset Seg)
    (h : ∀ s ∈ segs, s ∈ acc) : segs.foldl (fun st seg => insert seg st) acc = acc := by
  induction segs generalizing acc with
  | nil => rfl
  | cons t ts ih =>
    rw [List.foldl_cons, Finset.insert_eq_self.mpr (h t (List.mem_cons_self t ts))]
    exact ih acc fun s hs => h s (List.mem_cons_of_mem t hs)

theorem mem_foldl_erase (segs : List Seg) (acc : Finset Seg) (s : Seg) :
    s ∈ segs.foldl (fun st seg => st.erase seg) acc ↔ s ∈ acc ∧ s ∉ segs := by
  induction segs generalizing acc with
  | nil => simp
  | cons t ts ih =>
    rw [List.foldl_cons, ih]
    simp only [List.mem_cons, Finset.mem_erase]
    tauto

theorem Inv_add {b : Board} {a c : Pos} {k : Int} (hInv : Inv b)
    (h : (b.add_bridge a c k).1.1 = true) : Inv (b.add_bridge a c k).2 := by
  have hcan := add_bridge_true_can h
  obtain ⟨hia, hic, hk12, hvis, hcap, hcross, hdega, hdegc⟩ := can_add_true hcan
  obtain ⟨hnd, hok, hocc, hdeg⟩ := hInv
  rw [add_bridge_eq_of_can hcan]
  cases hget : dictGet b.bridges (pairKey a c) with
  | some w =>
    have hmem : (pairKey a c, w) ∈ b.bridges := dictGet_some_mem hget
    obtain ⟨hw1, hw2, hw3, hw4, hw5, hw6⟩ := hok _ hmem
    have hcur : curK b (pairKey a c) = w.k := curK_eq_of_get_some hget
    rw [hcur] at hcap
    simp only [Option.getD_some]
    refine ⟨?_, ?_, ?_, ?_⟩
    · show ((dictSet b.bridges (pairKey a c) ⟨w.k + k, orient a c⟩).map Prod.fst).Nodup
      rw [map_fst_dictSet_some _ hget]
      exact hnd
    · intro e he
      rw [EntryOK_set]
      rcases (mem_dictSet_iff hnd).mp he with he1 | ⟨he2, _⟩
      · subst he1
        refine ⟨hw1, hw2, hw3, hw4, ?_, ?_⟩
        · show w.k + k = 1 ∨ w.k + k = 2
          have hw5' : w.k = 1 ∨ w.k = 2 := hw5
          rcases hw5' with h5 | h5 <;> rcases hk12 with hKK | hKK <;> omega
        · show orient a c = orient (pairKey a c).1 (pairKey a c).2
          exact (orient_key a c).symm
      · exact hok e he2
    · show (path_between a c).foldl (fun s seg => insert seg s) b.occupied =
        segsOfEntries (dictSet b.bridges (pairKey a c) ⟨w.k + k, orient a c⟩)
      apply Finset.ext
      intro s
      rw [mem_foldl_insert, mem_segsOfEntries]
      constructor
      · rintro (hs | hs)
        · refine ⟨(pairKey a c, ⟨w.k + k, orient a c⟩),
            (mem_dictSet_iff hnd).mpr (Or.inl rfl), ?_⟩
          show s ∈ path_between (pairKey a c).1 (pairKey a c).2
          rw [path_between_key]
          exact hs
        · rw [hocc] at hs
          obtain ⟨e, he, hse⟩ := (mem_segsOfEntries _ _).mp hs
          by_cases hek : e.1 = pairKey a c
          · have he' : e = (pairKey a c, w) := entry_eq_of_get hnd hget he hek
            refine ⟨(pairKey a c, ⟨w.k + k, orient a c⟩),
              (mem_dictSet_iff hnd).mpr (Or.inl rfl), ?_⟩
            rw [he'] at hse
            exact hse
          · exact ⟨e, (mem_dictSet_iff hnd).mpr (Or.inr ⟨he, hek⟩), hse⟩
      · rintro ⟨e, he, hse⟩
        rcases (mem_dictSet_iff hnd).mp he with he1 | ⟨he2, _⟩
        · subst he1
          left
          have hse' : s ∈ path_between (pairKey a c).1 (pairKey a c).2 := hse
          rw [path_between_key] at hse'
          exact hse'
        · right
          rw [hocc]
          exact (mem_segsOfEntries _ _).mpr ⟨e, he2, hse⟩
    · intro pv hpv
      rw [islandsOf_set] at hpv
      rw [degree_set, degList_dictSet_some _ hget, ← degree_eq_degList]
      have hgd : (is_island? b pv.1).getD 0 = pv.2 := is_island?_getD_eq hpv
      by_cases hp : pv.1 = (pairKey a c).1 ∨ pv.1 = (pairKey a c).2
      · rw [if_pos hp]
        have hpac : pv.1 = a ∨ pv.1 = c := by
          rcases pairKey_cases a c with hkc | hkc <;> rw [hkc] at hp <;> tauto
        rcases hpac with hpa | hpc
        · have hda := hdega
          rw [← hpa] at hda
          rw [hgd] at hda
          show degree b pv.1 + (w.k + k - w.k) ≤ pv.2
          omega
        · have hdc := hdegc
          rw [← hpc] at hdc
          rw [hgd] at hdc
          show degree b pv.1 + (w.k + k - w.k) ≤ pv.2
          omega
      · rw [if_neg hp]
        have := hdeg pv hpv
        omega
  | none =>
    simp only [Option.getD_none, zero_add]
    have hknotmem := key_not_mem_of_get_none hget
    rw [dictSet_eq_append _ hget]
    refine ⟨?_, ?_, ?_, ?_⟩
    · show ((b.bridges ++
          [((pairKey a c, ⟨k, orient a c⟩) : (Pos × Pos) × BridgeInfo)]).map Prod.fst).Nodup
      rw [List.map_append, List.nodup_append]
      refine ⟨hnd, by simp, ?_⟩
      intro x hx hx2
      simp at hx2
      subst hx2
      exact hknotmem hx
    · intro e he
      rw [EntryOK_set]
      rcases List.mem_append.mp he with he1 | he1
      · exact hok e he1
      · have he2 : e = (pairKey a c, ⟨k, orient a c⟩) := by simpa using he1
        subst he2
        obtain ⟨hkia, hkic⟩ := islands_key hia hic
        exact ⟨hkia, hkic, visible_aligned_key hia hvis, pairKey_pairKey a c, hk12,
          (orient_key a c).symm⟩
    · show (path_between a c).foldl (fun s seg => insert seg s) b.occupied =
        segsOfEntries (b.bridges ++ [(pairKey a c, ⟨k, orient a c⟩)])
      apply Finset.ext
      intro s
      rw [mem_foldl_insert, mem_segsOfEntries]
      constructor
      · rintro (hs | hs)
        · refine ⟨(pairKey a c, ⟨k, orient a c⟩), List.mem_append_right _ (by simp), ?_⟩
          show s ∈ path_between (pairKey a c).1 (pairKey a c).2
          rw [path_between_key]
          exact hs
        · rw [hocc] at hs
          obtain ⟨e, he, hse⟩ := (mem_segsOfEntries _ _).mp hs
          exact ⟨e, List.mem_append_left _ he, hse⟩
      · rintro ⟨e, he, hse⟩
        rcases List.mem_append.mp he with he1 | he1
        · right
          rw [hocc]
          exact (mem_segsOfEntries _ _).mpr ⟨e, he1, hse⟩
        · left
          have he2 : e = (pairKey a c, ⟨k, orient a c⟩) := by simpa using he1
          subst he2
          have hse' : s ∈ path_between (pairKey a c).1 (pairKey a c).2 := hse
          rw [path_between_key] at hse'
          exact hse'
    · intro pv hpv
      rw [islandsOf_set] at hpv
      rw [degree_set, degList_append, ← degree_eq_degList, degList_cons, degList_nil]
      have hgd : (is_island? b pv.1).getD 0 = pv.2 := is_island?_getD_eq hpv
      by_cases hp : pv.1 = (pairKey a c).1 ∨ pv.1 = (pairKey a c).2
      · rw [if_pos hp]
        have hpac : pv.1 = a ∨ pv.1 = c := by
          rcases pairKey_cases a c with hkc | hkc <;> rw [hkc] at hp <;> tauto
        rcases hpac with hpa | hpc
        · have hda := hdega
          rw [← hpa] at hda
          rw [hgd] at hda
          show degree b pv.1 + (k + 0) ≤ pv.2
          omega
        · have hdc := hdegc
          rw [← hpc] at hdc
          rw [hgd] at hdc
          show degree b pv.1 + (k + 0) ≤ pv.2
          omega
      · rw [if_neg hp]
        have := hdeg pv hpv
        omega

theorem isSome_not_isNone {α : Type} {o : Option α} (h : o.isSome = true) :
    ¬ o.isNone = true := by
  cases o <;> simp_all

theorem dictSet_dictSet {β : Type} (l : List ((Pos × Pos) × β)) (key : Pos × Pos) (v w : β) :
    dictSet (dictSet l key v) key w = dictSet l key w := by
  induction l with
  | nil => simp [dictSet]
  | cons e es ih =>
    by_cases hk : e.1 = key
    · simp [dictSet, hk]
    · simp [dictSet, hk, ih]

theorem can_remove_intro {b : Board} {a c : Pos} {k : Int}
    (hia : (is_island? b a).isSome = true) (hic : (is_island? b c).isSome = true)
    (hk : k = 1 ∨ k = 2) {w : BridgeInfo} (hget : dictGet b.bridges (pairKey a c) = some w)
    (hkw : k ≤ w.k) : (b.can_remove_bridge a c k).1 = true := by
  have h1 : ¬((is_island? b a).isNone = true ∨ (is_island? b c).isNone = true) := by
    rintro (hx | hx)
    · exact isSome_not_isNone hia hx
    · exact isSome_not_isNone hic hx
  unfold Board.can_remove_bridge
  rw [if_neg h1, if_neg (not_not.mpr hk), hget]
  show (if w.k < k then ((false, "No hay tantos puentes para quitar.") : Bool × String)
    else (true, "OK")).1 = true
  rw [if_neg (show ¬ w.k < k by omega)]

theorem Inv_remove {b : Board} {a c : Pos} {k : Int} (hInv : Inv b)
    (h : (b.remove_bridge a c k).1.1 = true) : Inv (b.remove_bridge a c k).2 := by
  have hcan := remove_bridge_true_can h
  obtain ⟨hia, hic, hk12, w, hget, hkw⟩ := can_remove_true hcan
  obtain ⟨hnd, hok, hocc, hdeg⟩ := hInv
  have hmem : (pairKey a c, w) ∈ b.bridges := dictGet_some_mem hget
  obtain ⟨hw1, hw2, hw3, hw4, hw5, hw6⟩ := hok _ hmem
  have hw5' : w.k = 1 ∨ w.k = 2 := hw5
  by_cases hz : w.k - k = 0
  · rw [remove_bridge_eq_zero hcan hget hz]
    refine ⟨?_, ?_, ?_, ?_⟩
    · show ((dictDel b.bridges (pairKey a c)).map Prod.fst).Nodup
      exact hnd.sublist ((dictDel_sublist _ _).map Prod.fst)
    · intro e he
      rw [EntryOK_set]
      exact hok e ((mem_dictDel_iff hnd).mp he).1
    · show (path_between a c).foldl (fun st seg => st.erase seg) b.occupied =
        segsOfEntries (dictDel b.bridges (pairKey a c))
      apply Finset.ext
      intro s
      rw [mem_foldl_erase, mem_segsOfEntries, hocc]
      constructor
      · rintro ⟨hs, hnp⟩
        obtain ⟨e, he, hse⟩ := (mem_segsOfEntries _ _).mp hs
        refine ⟨e, (mem_dictDel_iff hnd).mpr ⟨he, ?_⟩, hse⟩
        intro hek
        have he' := entry_eq_of_get hnd hget he hek
        rw [he'] at hse
        apply hnp
        have hse' : s ∈ path_between (pairKey a c).1 (pairKey a c).2 := hse
        rw [path_between_key] at hse'
        exact hse'
      · rintro ⟨e, he, hse⟩
        obtain ⟨he1, hek⟩ := (mem_dictDel_iff hnd).mp he
        refine ⟨(mem_segsOfEntries _ _).mpr ⟨e, he1, hse⟩, ?_⟩
        intro hsp
        obtain ⟨he_1, he_2, he_3, he_4, he_5, he_6⟩ := hok e he1
        have hkia : (is_island? b (pairKey a c).1).isSome = true := hw1
        have hkvis : visible_aligned b (pairKey a c).1 (pairKey a c).2 = true := hw3
        have hkkey : pairKey (pairKey a c).1 (pairKey a c).2 = pairKey a c := hw4
        have hsp' : s ∈ path_between (pairKey a c).1 (pairKey a c).2 := by
          rw [path_between_key]
          exact hsp
        refine corridor_disjoint he_1 hkia he_3 hkvis ?_ hse hsp'
        rw [he_4, hkkey]
        exact hek
    · intro pv hpv
      rw [islandsOf_set] at hpv
      rw [degree_set, degList_dictDel hget, ← degree_eq_degList]
      have := hdeg pv hpv
      by_cases hp : pv.1 = (pairKey a c).1 ∨ pv.1 = (pairKey a c).2
      · rw [if_pos hp]
        omega
      · rw [if_neg hp]
        omega
  · rw [remove_bridge_eq_pos hcan hget hz]
    refine ⟨?_, ?_, ?_, ?_⟩
    · show ((dictSet b.bridges (pairKey a c) ⟨w.k - k, w.dir⟩).map Prod.fst).Nodup
      rw [map_fst_dictSet_some _ hget]
      exact hnd
    · intro e he
      rw [EntryOK_set]
      rcases (mem_dictSet_iff hnd).mp he with he1 | ⟨he2, _⟩
      · subst he1
        refine ⟨hw1, hw2, hw3, hw4, ?_, hw6⟩
        show w.k - k = 1 ∨ w.k - k = 2
        have hk12' : k = 1 ∨ k = 2 := hk12
        omega
      · exact hok e he2
    · show b.occupied = segsOfEntries (dictSet b.bridges (pairKey a c) ⟨w.k - k, w.dir⟩)
      rw [hocc]
      apply Finset.ext
      intro s
      rw [mem_segsOfEntries, mem_segsOfEntries]
      constructor
      · rintro ⟨e, he, hse⟩
        by_cases hek : e.1 = pairKey a c
        · have he' := entry_eq_of_get hnd hget he hek
          refine ⟨(pairKey a c, ⟨w.k - k, w.dir⟩), (mem_dictSet_iff hnd).mpr (Or.inl rfl), ?_⟩
          rw [he'] at hse
          exact hse
        · exact ⟨e, (mem_dictSet_iff hnd).mpr (Or.inr ⟨he, hek⟩), hse⟩
      · rintro ⟨e, he, hse⟩
        rcases (mem_dictSet_iff hnd).mp he with he1 | ⟨he2, _⟩
        · subst he1
          exact ⟨(pairKey a c, w), hmem, hse⟩
        · exact ⟨e, he2, hse⟩
    · intro pv hpv
      rw [islandsOf_set] at hpv
      rw [degree_set, degList_dictSet_some _ hget, ← degree_eq_degList]
      have := hdeg pv hpv
      by_cases hp : pv.1 = (pairKey a c).1 ∨ pv.1 = (pairKey a c).2
      · rw [if_pos hp]
        show degree b pv.1 + (w.k - k - w.k) ≤ pv.2
        have hk12' : k = 1 ∨ k = 2 := hk12
        omega
      · rw [if_neg hp]
        omega

theorem add_remove_id {b : Board} {a c : Pos} {k : Int} (hInv : Inv b)
    (h : (b.add_bridge a c k).1.1 = true) :
    ((b.add_bridge a c k).2.remove_bridge a c k).1.1 = true ∧
      ((b.add_bridge a c k).2.remove_bridge a c k).2 = b := by
  have hcan := add_bridge_true_can h
  obtain ⟨hia, hic, hk12, hvis, hcap, hcross, hdega, hdegc⟩ := can_add_true hcan
  obtain ⟨hnd, hok, hocc, hdeg⟩ := hInv
  rw [add_bridge_eq_of_can hcan]
  cases hget : dictGet b.bridges (pairKey a c) with
  | some w =>
    obtain ⟨hw1, hw2, hw3, hw4, hw5, hw6⟩ := hok _ (dictGet_some_mem hget)
    have hw5' : w.k = 1 ∨ w.k = 2 := hw5
    have hcur : curK b (pairKey a c) = w.k := curK_eq_of_get_some hget
    rw [hcur] at hcap
    simp only [Option.getD_some]
    have hsub : ∀ s ∈ path_between a c, s ∈ b.occupied := by
      intro s hs
      rw [hocc]
      refine (mem_segsOfEntries _ _).mpr ⟨(pairKey a c, w), dictGet_some_mem hget, ?_⟩
      show s ∈ path_between (pairKey a c).1 (pairKey a c).2
      rw [path_between_key]
      exact hs
    have hoccEq : (path_between a c).foldl (fun s seg => insert seg s) b.occupied = b.occupied :=
      foldl_insert_of_subset _ _ hsub
    rw [hoccEq]
    have hget1 : dictGet (dictSet b.bridges (pairKey a c) ⟨w.k + k, orient a c⟩) (pairKey a c)
        = some ⟨w.k + k, orient a c⟩ := dictGet_dictSet_self _ _ _
    have hcan' : (({ b with
        bridges := dictSet b.bridges (pairKey a c) ⟨w.k + k, orient a c⟩,
        occupied := b.occupied } : Board).can_remove_bridge a c k).1 = true := by
      refine can_remove_intro ?_ ?_ hk12 hget1 ?_
      · rw [is_island?_set]
        exact hia
      · rw [is_island?_set]
        exact hic
      · show k ≤ w.k + k
        omega
    have hz : ¬ ((⟨w.k + k, orient a c⟩ : BridgeInfo).k - k = 0) := by
      show ¬ (w.k + k - k = 0)
      omega
    rw [remove_bridge_eq_pos hcan' hget1 hz]
    refine ⟨rfl, ?_⟩
    show ({ b with
      bridges := dictSet (dictSet b.bridges (pairKey a c) ⟨w.k + k, orient a c⟩)
        (pairKey a c) ⟨w.k + k - k, orient a c⟩,
      occupied := b.occupied } : Board) = b
    rw [dictSet_dictSet]
    have hinfo : (⟨w.k + k - k, orient a c⟩ : BridgeInfo) = w := by
      have hdir : w.dir = orient a c := by
        have h6 : w.dir = orient (pairKey a c).1 (pairKey a c).2 := hw6
        rw [orient_key] at h6
        exact h6
      have hkk : w.k + k - k = w.k := by ring
      rw [hkk, ← hdir]
    rw [hinfo, dictSet_eq_self hget]
  | none =>
    simp only [Option.getD_none, zero_add]
    have hget1 : dictGet (dictSet b.bridges (pairKey a c) ⟨k, orient a c⟩) (pairKey a c)
        = some ⟨k, orient a c⟩ := dictGet_dictSet_self _ _ _
    have hcan' : (({ b with
        bridges := dictSet b.bridges (pairKey a c) ⟨k, orient a c⟩,
        occupied := (path_between a c).foldl (fun s seg => insert seg s) b.occupied } :
          Board).can_remove_bridge a c k).1 = true := by
      refine can_remove_intro ?_ ?_ hk12 hget1 ?_
      · rw [is_island?_set]
        exact hia
      · rw [is_island?_set]
        exact hic
      · show k ≤ k
        exact le_refl k
    have hz : (⟨k, orient a c⟩ : BridgeInfo).k - k = 0 := by
      show k - k = 0
      ring
    rw [remove_bridge_eq_zero hcan' hget1 hz]
    refine ⟨rfl, ?_⟩
    show ({ b with
      bridges := dictDel (dictSet b.bridges (pairKey a c) ⟨k, orient a c⟩) (pairKey a c),
      occupied := (path_between a c).foldl (fun st seg => st.erase seg)
        ((path_between a c).foldl (fun s seg => insert seg s) b.occupied) } : Board) = b
    have hbr : dictDel (dictSet b.bridges (pairKey a c) ⟨k, orient a c⟩) (pairKey a c)
        = b.bridges := by
      rw [dictSet_eq_append _ hget]
      exact dictDel_append _ hget
    have hoc : (path_between a c).foldl (fun st seg => st.erase seg)
        ((path_between a c).foldl (fun s seg => insert seg s) b.occupied) = b.occupied := by
      apply Finset.ext
      intro s
      rw [mem_foldl_erase, mem_foldl_insert]
      constructor
      · rintro ⟨(hs | hs), hnp⟩
        · exact absurd hs hnp
        · exact hs
      · intro hs
        refine ⟨Or.inr hs, ?_⟩
        intro hsp
        have hs' := hs
        rw [hocc] at hs'
        obtain ⟨e, he, hse⟩ := (mem_segsOfEntries _ _).mp hs'
        obtain ⟨he_1, he_2, he_3, he_4, he_5, he_6⟩ := hok e he
        obtain ⟨hkia, hkic⟩ := islands_key hia hic
        have hkvis := visible_aligned_key hia hvis
        have hsp' : s ∈ path_between (pairKey a c).1 (pairKey a c).2 := by
          rw [path_between_key]
          exact hsp
        refine corridor_disjoint he_1 hkia he_3 hkvis ?_ hse hsp'
        rw [he_4, pairKey_pairKey]
        exact fun hx => dictGet_eq_none_iff.mp hget e he hx
    rw [hbr, hoc]

theorem Inv_make (nRows nCols : Int) (grid : List (List Char)) :
    Inv (Board.make nRows nCols grid) := by
  refine ⟨?_, ?_, ?_, ?_⟩
  · simp [Board.make]
  · intro e he
    simp [Board.make] at he
  · rfl
  · intro pv hpv
    have h1 := islandVal_pos hpv
    have h0 : degree (Board.make nRows nCols grid) pv.1 = 0 := rfl
    omega

theorem Reachable_Inv {b : Board} (h : Reachable b) : Inv b := by
  induction h with
  | fresh nR nC g => exact Inv_make nR nC g
  | add b a c k hr hs ih => exact Inv_add ih hs
  | remove b a c k hr hs ih => exact Inv_remove ih hs

theorem foldl_tryVal_const_true
    (prop : (Nat → List Int) → List Nat → Board → Option (Nat → List Int))
    (bt : (Nat → List Int) → List Nat → Board → Bool × Board)
    (var : Nat) (a c : Pos) (dom : Nat → List Int) (u : List Nat)
    (vals : List Int) (bd : Board) :
    vals.foldl (tryVal prop bt var a c dom u) (true, bd) = (true, bd) := by
  induction vals with
  | nil => rfl
  | cons v vs ih =>
    rw [List.foldl_cons]
    exact ih

theorem afterTry_true {prop : (Nat → List Int) → List Nat → Board → Option (Nat → List Int)}
    {bt : (Nat → List Int) → List Nat → Board → Bool × Board}
    {var : Nat} {a c : Pos} {dom : Nat → List Int} {u : List Nat}
    {v delta : Int} {b1 bx : Board}
    (hbt : ∀ d uu bd b2, bt d uu bd = (true, b2) → (b2.full_check).1 = true)
    (h : afterTry prop bt var a c dom u v delta b1 = (true, bx)) :
    (bx.full_check).1 = true := by
  simp only [afterTry] at h
  cases hp : prop (fun j => if j = var then [v] else dom j) (u.erase var) b1 with
  | none =>
    simp only [hp] at h
    exact absurd (congrArg Prod.fst h) (by simp)
  | some dom2 =>
    simp only [hp] at h
    cases hbt2 : bt dom2 (u.erase var) b1 with
    | mk bb b2 =>
      cases bb
      · simp only [hbt2] at h
        exact absurd (congrArg Prod.fst h) (by simp)
      · simp only [hbt2] at h
        have hbx : bx = b2 := (congrArg Prod.snd h).symm
        rw [hbx]
        exact hbt _ _ _ _ hbt2

theorem afterTry_false {prop : (Nat → List Int) → List Nat → Board → Option (Nat → List Int)}
    {bt : (Nat → List Int) → List Nat → Board → Bool × Board}
    {var : Nat} {a c : Pos} {dom : Nat → List Int} {u : List Nat}
    {v delta : Int} {b1 bx : Board}
    (hbt : ∀ d uu bd b2, Inv bd → bt d uu bd = (false, b2) → b2 = bd)
    (hInv1 : Inv b1)
    (h : afterTry prop bt var a c dom u v delta b1 = (false, bx)) :
    bx = if 0 < delta then (b1.remove_bridge a c delta).2 else b1 := by
  simp only [afterTry] at h
  cases hp : prop (fun j => if j = var then [v] else dom j) (u.erase var) b1 with
  | none =>
    simp only [hp] at h
    exact (congrArg Prod.snd h).symm
  | some dom2 =>
    simp only [hp] at h
    cases hbt2 : bt dom2 (u.erase var) b1 with
    | mk bb b2 =>
      cases bb
      · simp only [hbt2] at h
        have hb2 : b2 = b1 := hbt _ _ _ _ hInv1 hbt2
        rw [← hb2]
        exact (congrArg Prod.snd h).symm
      · simp only [hbt2] at h
        exact absurd (congrArg Prod.fst h) (by simp)

theorem tryVal_true {prop : (Nat → List Int) → List Nat → Board → Option (Nat → List Int)}
    {bt : (Nat → List Int) → List Nat → Board → Bool × Board}
    {var : Nat} {a c : Pos} {dom : Nat → List Int} {u : List Nat}
    {board bx : Board} {v : Int}
    (hbt : ∀ d uu bd b2, bt d uu bd = (true, b2) → (b2.full_check).1 = true)
    (h : tryVal prop bt var a c dom u (false, board) v = (true, bx)) :
    (bx.full_check).1 = true := by
  simp only [tryVal] at h
  by_cases hv : v < curK board (pairKey a c)
  · rw [if_pos hv] at h
    exact absurd (congrArg Prod.fst h) (by simp)
  · rw [if_neg hv] at h
    by_cases hd : 0 < v - curK board (pairKey a c)
    · rw [if_pos hd] at h
      by_cases hob : (board.add_bridge a c (v - curK board (pairKey a c))).1.1 = true
      · rw [if_pos hob] at h
        exact afterTry_true hbt h
      · rw [if_neg hob] at h
        exact absurd (congrArg Prod.fst h) (by simp)
    · rw [if_neg hd] at h
      exact afterTry_true hbt h

theorem tryVal_false {prop : (Nat → List Int) → List Nat → Board → Option (Nat → List Int)}
    {bt : (Nat → List Int) → List Nat → Board → Bool × Board}
    {var : Nat} {a c : Pos} {dom : Nat → List Int} {u : List Nat}
    {board bx : Board} {v : Int}
    (hInv : Inv board)
    (hbt : ∀ d uu bd b2, Inv bd → bt d uu bd = (false, b2) → b2 = bd)
    (h : tryVal prop bt var a c dom u (false, board) v = (false, bx)) :
    bx = board := by
  simp only [tryVal] at h
  by_cases hv : v < curK board (pairKey a c)
  · rw [if_pos hv] at h
    exact (congrArg Prod.snd h).symm
  · rw [if_neg hv] at h
    by_cases hd : 0 < v - curK board (pairKey a c)
    · rw [if_pos hd] at h
      by_cases hob : (board.add_bridge a c (v - curK board (pairKey a c))).1.1 = true
      · rw [if_pos hob] at h
        have hInv1 := Inv_add hInv hob
        have hid := add_remove_id hInv hob
        have hbx := afterTry_false hbt hInv1 h
        rw [hbx, if_pos hd]
        exact hid.2
      · rw [if_neg hob] at h
        have hfail : (board.add_bridge a c (v - curK board (pairKey a c))).1.1 = false :=
          bool_not_true hob
        have hbx : bx = (board.add_bridge a c (v - curK board (pairKey a c))).2 :=
          (congrArg Prod.snd h).symm
        rw [hbx]
        exact add_bridge_fail_frame hfail
    · rw [if_neg hd] at h
      have hbx := afterTry_false hbt hInv h
      rw [hbx, if_neg hd]

theorem foldl_tryVal_true {prop : (Nat → List Int) → List Nat → Board → Option (Nat → List Int)}
    {bt : (Nat → List Int) → List Nat → Board → Bool × Board}
    {var : Nat} {a c : Pos} {dom : Nat → List Int} {u : List Nat}
    (hbt : ∀ d uu bd b2, bt d uu bd = (true, b2) → (b2.full_check).1 = true) :
    ∀ (vals : List Int) (board b2 : Board),
      vals.foldl (tryVal prop bt var a c dom u) (false, board) = (true, b2) →
      (b2.full_check).1 = true := by
  intro vals
  induction vals with
  | nil =>
    intro board b2 h
    exact absurd (congrArg Prod.fst h) (by simp)
  | cons v vs ih =>
    intro board b2 h
    rw [List.foldl_cons] at h
    cases hr : tryVal prop bt var a c dom u (false, board) v with
    | mk bb bx =>
      rw [hr] at h
      cases bb
      · exact ih bx b2 h
      · rw [foldl_tryVal_const_true] at h
        have hfc := tryVal_true hbt hr
        have hb2 : b2 = bx := (congrArg Prod.snd h).symm
        rw [hb2]
        exact hfc

theorem foldl_tryVal_false {prop : (Nat → List Int) → List Nat → Board → Option (Nat → List Int)}
    {bt : (Nat → List Int) → List Nat → Board → Bool × Board}
    {var : Nat} {a c : Pos} {dom : Nat → List Int} {u : List Nat}
    (hbt : ∀ d uu bd b2, Inv bd → bt d uu bd = (false, b2) → b2 = bd) :
    ∀ (vals : List Int) (board b2 : Board), Inv board →
      vals.foldl (tryVal prop bt var a c dom u) (false, board) = (false, b2) → b2 = board := by
  intro vals
  induction vals with
  | nil =>
    intro board b2 _ h
    exact (congrArg Prod.snd h).symm
  | cons v vs ih =>
    intro board b2 hInv h
    rw [List.foldl_cons] at h
    cases hr : tryVal prop bt var a c dom u (false, board) v with
    | mk bb bx =>
      rw [hr] at h
      cases bb
      · have hbx : bx = board := tryVal_false hInv hbt hr
        rw [hbx] at h
        exact ih board b2 hInv h
      · rw [foldl_tryVal_const_true] at h
        exact absurd (congrArg Prod.fst h) (by simp)

theorem backtrack_true {edges : List (Pos × Pos)} {incident : Pos → List Nat} {useMrv : Bool}
    {pfuel : Nat} :
    ∀ (fuel : Nat) (dom : Nat → List Int) (u : List Nat) (board b2 : Board),
      backtrack edges incident useMrv pfuel fuel dom u board = (true, b2) →
      (b2.full_check).1 = true := by
  intro fuel
  induction fuel with
  | zero =>
    intro dom u board b2 h
    simp only [backtrack] at h
    exact absurd (congrArg Prod.fst h) (by simp)
  | succ fuel ih =>
    intro dom u board b2 h
    simp only [backtrack] at h
    by_cases hu : u.isEmpty
    · rw [if_pos hu] at h
      have h1 : (board.full_check).1 = true := congrArg Prod.fst h
      have h2 : board = b2 := congrArg Prod.snd h
      rw [← h2]
      exact h1
    · rw [if_neg hu] at h
      exact foldl_tryVal_true (fun d uu bd bb hh => ih d uu bd bb hh) _ _ _ h

theorem backtrack_false {edges : List (Pos × Pos)} {incident : Pos → List Nat} {useMrv : Bool}
    {pfuel : Nat} :
    ∀ (fuel : Nat) (dom : Nat → List Int) (u : List Nat) (board b2 : Board), Inv board →
      backtrack edges incident useMrv pfuel fuel dom u board = (false, b2) → b2 = board := by
  intro fuel
  induction fuel with
  | zero =>
    intro dom u board b2 _ h
    simp only [backtrack] at h
    exact (congrArg Prod.snd h).symm
  | succ fuel ih =>
    intro dom u board b2 hInv h
    simp only [backtrack] at h
    by_cases hu : u.isEmpty
    · rw [if_pos hu] at h
      have h2 : board = b2 := congrArg Prod.snd h
      exact h2.symm
    · rw [if_neg hu] at h
      exact foldl_tryVal_false (fun d uu bd bb hi hh => ih d uu bd bb hi hh) _ _ _ hInv h

theorem solve_csp_true {board b2 : Board} {useMrv : Bool}
    (h : solve_csp board useMrv = (true, b2)) : (b2.full_check).1 = true := by
  simp only [solve_csp] at h
  cases hp : propagate board (incidentOf (buildEdges board))
      (3 * (buildEdges board).length + 2) (fun _ => [0, 1, 2])
      (List.range (buildEdges board).length) with
  | none =>
    rw [hp] at h
    exact absurd (congrArg Prod.fst h) (by simp)
  | some dom1 =>
    rw [hp] at h
    exact backtrack_true _ _ _ _ _ h

theorem solve_csp_false {board b2 : Board} {useMrv : Bool} (hInv : Inv board)
    (h : solve_csp board useMrv = (false, b2)) : b2 = board := by
  simp only [solve_csp] at h
  cases hp : propagate board (incidentOf (buildEdges board))
      (3 * (buildEdges board).length + 2) (fun _ => [0, 1, 2])
      (List.range (buildEdges board).length) with
  | none =>
    rw [hp] at h
    exact (congrArg Prod.snd h).symm
  | some dom1 =>
    rw [hp] at h
    exact backtrack_false _ _ _ _ _ hInv h

theorem crossing_if_add_symm (b : Board) (a c : Pos) :
    crossing_if_add b c a = crossing_if_add b a c := by
  unfold crossing_if_add
  rw [path_between_symm c a]

theorem can_add_verdict_symm (b : Board) (a c : Pos) (k : Int) :
    (b.can_add_bridge a c k).1 = (b.can_add_bridge c a k).1 := by
  unfold Board.can_add_bridge
  by_cases h1 : (is_island? b a).isNone = true ∨ (is_island? b c).isNone = true
  · rw [if_pos h1, if_pos (Or.symm h1)]
  · rw [if_neg h1, if_neg (fun hx => h1 (Or.symm hx))]
    by_cases h2 : ¬(k = 1 ∨ k = 2)
    · rw [if_pos h2, if_pos h2]
    · rw [if_neg h2, if_neg h2]
      have hia : (is_island? b a).isSome = true := not_isNone_isSome fun hx => h1 (Or.inl hx)
      have hic : (is_island? b c).isSome = true := not_isNone_isSome fun hx => h1 (Or.inr hx)
      have hvs : visible_aligned b a c = visible_aligned b c a := visible_aligned_symm hia hic
      by_cases h3 : ¬ visible_aligned b a c = true
      · rw [if_pos h3, if_pos (by rw [← hvs]; exact h3)]
      · rw [if_neg h3, if_neg (show ¬¬ visible_aligned b c a = true by rw [← hvs]; exact h3)]
        rw [pairKey_symm c a, crossing_if_add_symm b a c]
        by_cases h4 : 2 < curK b (pairKey a c) + k <;>
          by_cases h5 : crossing_if_add b a c = true <;>
            by_cases h6 : (is_island? b a).getD 0 < degree b a + k <;>
              by_cases h7 : (is_island? b c).getD 0 < degree b c + k <;>
                simp [h4, h5, h6, h7]

theorem add_bridge_state_symm (b : Board) (a c : Pos) (k : Int) :
    (b.add_bridge a c k).2 = (b.add_bridge c a k).2 := by
  by_cases h : (b.can_add_bridge a c k).1 = true
  · have h' : (b.can_add_bridge c a k).1 = true := by
      rw [← can_add_verdict_symm]
      exact h
    rw [add_bridge_eq_of_can h, add_bridge_eq_of_can h']
    rw [pairKey_symm c a, orient_symm c a, path_between_symm c a]
  · have h' : ¬ (b.can_add_bridge c a k).1 = true := by
      rw [← can_add_verdict_symm]
      exact h
    rw [add_bridge_eq_of_not h, add_bridge_eq_of_not h']

theorem add_bridge_verdict_symm (b : Board) (a c : Pos) (k : Int) :
    (b.add_bridge a c k).1.1 = (b.add_bridge c a k).1.1 := by
  by_cases h : (b.can_add_bridge a c k).1 = true
  · have h' : (b.can_add_bridge c a k).1 = true := by
      rw [← can_add_verdict_symm]
      exact h
    rw [add_bridge_eq_of_can h, add_bridge_eq_of_can h']
  · have h' : ¬ (b.can_add_bridge c a k).1 = true := by
      rw [← can_add_verdict_symm]
      exact h
    rw [add_bridge_eq_of_not h, add_bridge_eq_of_not h']

theorem can_remove_symm (b : Board) (a c : Pos) (k : Int) :
    b.can_remove_bridge a c k = b.can_remove_bridge c a k := by
  unfold Board.can_remove_bridge
  by_cases h1 : (is_island? b a).isNone = true ∨ (is_island? b c).isNone = true
  · rw [if_pos h1, if_pos (Or.symm h1)]
  · rw [if_neg h1, if_neg (fun hx => h1 (Or.symm hx))]
    by_cases h2 : ¬(k = 1 ∨ k = 2)
    · rw [if_pos h2, if_pos h2]
    · rw [if_neg h2, if_neg h2]
      rw [pairKey_symm c a]

theorem remove_bridge_state_symm (b : Board) (a c : Pos) (k : Int) :
    (b.remove_bridge a c k).2 = (b.remove_bridge c a k).2 := by
  by_cases h : (b.can_remove_bridge a c k).1 = true
  · have h' : (b.can_remove_bridge c a k).1 = true := by
      rw [can_remove_symm b c a]
      exact h
    cases hget : dictGet b.bridges (pairKey a c) with
    | none =>
      obtain ⟨_, _, _, w, hg, _⟩ := can_remove_true h
      rw [hg] at hget
      simp at hget
    | some w =>
      have hget' : dictGet b.bridges (pairKey c a) = some w := by
        rw [pairKey_symm c a]
        exact hget
      by_cases hz : w.k - k = 0
      · rw [remove_bridge_eq_zero h hget hz, remove_bridge_eq_zero h' hget' hz]
        rw [pairKey_symm c a, path_between_symm c a]
      · rw [remove_bridge_eq_pos h hget hz, remove_bridge_eq_pos h' hget' hz]
        rw [pairKey_symm c a]
  · have h' : ¬ (b.can_remove_bridge c a k).1 = true := by
      rw [can_remove_symm b c a]
      exact h
    rw [remove_bridge_eq_of_not h, remove_bridge_eq_of_not h']

theorem parseRows_ok_iff (nCols : Int) :
    ∀ (ls : List String) (i : Nat),
      (∃ g, parseRows nCols ls i = Except.ok g) ↔
        ∀ line ∈ ls, (line.length : Int) = nCols ∧
          ∀ ch ∈ line.toList, '0' ≤ ch ∧ ch ≤ '8' := by
  intro ls
  induction ls with
  | nil =>
    intro i
    constructor
    · intro _ line hline
      cases hline
    · intro _
      exact ⟨[], rfl⟩
  | cons line rest ih =>
    intro i
    constructor
    · rintro ⟨g, hg⟩
      unfold parseRows at hg
      by_cases h1 : (line.length : Int) ≠ nCols
      · rw [if_pos h1] at hg
        cases hg
      · rw [if_neg h1] at hg
        cases hf : line.toList.find? (fun ch => decide (ch < '0') || decide ('8' < ch)) with
        | some ch =>
          rw [hf] at hg
          cases hg
        | none =>
          rw [hf] at hg
          have hrest : ∃ g', parseRows nCols rest (i + 1) = Except.ok g' := by
            cases hr : parseRows nCols rest (i + 1) with
            | error e =>
              rw [hr] at hg
              cases hg
            | ok g' => exact ⟨g', rfl⟩
          intro l hl
          rcases List.mem_cons.mp hl with hle | hle
          · subst hle
            refine ⟨not_not.mp h1, fun ch hch => ?_⟩
            have hnp := List.find?_eq_none.mp hf ch hch
            simp at hnp
            exact hnp
          · exact (ih (i + 1)).mp hrest l hle
    · intro hall
      have hline := hall line (List.mem_cons_self _ _)
      obtain ⟨g', hg'⟩ := (ih (i + 1)).mpr fun l hl => hall l (List.mem_cons_of_mem _ hl)
      refine ⟨line.toList :: g', ?_⟩
      unfold parseRows
      rw [if_neg (not_not.mpr hline.1)]
      have hf : line.toList.find? (fun ch => decide (ch < '0') || decide ('8' < ch)) = none := by
        rw [List.find?_eq_none]
        intro ch hch
        have hb := hline.2 ch hch
        simp
        exact hb
      rw [hf, hg']
      rfl

theorem parse_ok_iff (lines : List String) :
    (∃ bd, Board.parse_from_lines lines = Except.ok bd) ↔ WellFormedInput lines := by
  cases lines with
  | nil =>
    constructor
    · rintro ⟨bd, hbd⟩
      cases hbd
    · intro h
      exact (h : False).elim
  | cons l0 rest =>
    show _ ↔ (l0.toList.contains ',' = true ∧
      ∃ rc : Int × Int, parseHeader l0 = some rc ∧ (rest.length : Int) = rc.1 ∧
        ∀ line ∈ rest, (line.length : Int) = rc.2 ∧ ∀ ch ∈ line.toList, '0' ≤ ch ∧ ch ≤ '8')
    by_cases h1 : l0.toList.contains ',' = true
    · have h1' : ',' ∈ l0.data := by simpa using h1
      cases hh : parseHeader l0 with
      | none =>
        have heq : Board.parse_from_lines (l0 :: rest) =
            Except.error "Encabezado inválido: no se pudo leer filas y columnas." := by
          simp [Board.parse_from_lines, h1', hh]
        rw [heq]
        constructor
        · rintro ⟨bd, hbd⟩
          cases hbd
        · rintro ⟨_, rc, hrc, _⟩
          cases hrc
      | some rc =>
        obtain ⟨r, c⟩ := rc
        by_cases h2 : (rest.length : Int) ≠ r
        · have heq : Board.parse_from_lines (l0 :: rest) =
              Except.error "Cantidad de filas no coincide con el encabezado." := by
            simp [Board.parse_from_lines, h1', hh, h2]
          rw [heq]
          constructor
          · rintro ⟨bd, hbd⟩
            cases hbd
          · rintro ⟨_, rc', hrc', hlen, _⟩
            have : rc' = (r, c) := (Option.some.inj hrc').symm
            subst this
            exact absurd hlen h2
        · have h2' : (rest.length : Int) = r := not_not.mp h2
          have heq : Board.parse_from_lines (l0 :: rest) =
              (parseRows c rest 1).map fun grid => Board.make r c grid := by
            simp [Board.parse_from_lines, h1', hh, h2']
          rw [heq]
          constructor
          · rintro ⟨bd, hbd⟩
            refine ⟨h1, (r, c), rfl, h2', ?_⟩
            have hex : ∃ g, parseRows c rest 1 = Except.ok g := by
              cases hr : parseRows c rest 1 with
              | error e =>
                rw [hr] at hbd
                cases hbd
              | ok g => exact ⟨g, rfl⟩
            exact (parseRows_ok_iff c rest 1).mp hex
          · rintro ⟨_, rc', hrc', hlen, hrows⟩
            have : rc' = (r, c) := (Option.some.inj hrc').symm
            subst this
            obtain ⟨g, hg⟩ := (parseRows_ok_iff c rest 1).mpr hrows
            refine ⟨Board.make r c g, ?_⟩
            rw [hg]
            rfl
    · have h1' : ',' ∉ l0.data := by simpa using h1
      have heq : Board.parse_from_lines (l0 :: rest) =
          Except.error "Encabezado inválido. Use 'filas,columnas'." := by
        simp [Board.parse_from_lines, h1']
      rw [heq]
      constructor
      · rintro ⟨bd, hbd⟩
        cases hbd
      · rintro ⟨hc, _⟩
        exact absurd hc h1

theorem remove_bridge_verdict_symm (b : Board) (a c : Pos) (k : Int) :
    (b.remove_bridge a c k).1 = (b.remove_bridge c a k).1 := by
  by_cases h : (b.can_remove_bridge a c k).1 = true
  · have h' : (b.can_remove_bridge c a k).1 = true := by
      rw [← can_remove_symm b a c]
      exact h
    cases hget : dictGet b.bridges (pairKey a c) with
    | none =>
      obtain ⟨_, _, _, w, hg, _⟩ := can_remove_true h
      rw [hg] at hget
      simp at hget
    | some w =>
      have hget' : dictGet b.bridges (pairKey c a) = some w := by
        rw [pairKey_symm c a]
        exact hget
      by_cases hz : w.k - k = 0
      · rw [remove_bridge_eq_zero h hget hz, remove_bridge_eq_zero h' hget' hz]
      · rw [remove_bridge_eq_pos h hget hz, remove_bridge_eq_pos h' hget' hz]
  · have h' : ¬ (b.can_remove_bridge c a k).1 = true := by
      rw [← can_remove_symm b a c]
      exact h
    rw [remove_bridge_eq_of_not h, remove_bridge_eq_of_not h']
    rw [can_remove_symm b a c]

/-!
The ten claims of the specification, in order.
-/

/-- Claim C1: the specification's crossing rule requires
`can_add_bridge (0,1) (2,1) 1` on the plus board to fail with the crossing
error once the horizontal bridge `(1,0)-(1,2)` is committed, since the
vertical corridor's segment tagged `(1,1)` has its orthogonal counterpart
`(H,1,1)` occupied. The code accepts the bridge instead: `_crossing_if_add`
reports a crossing only when a candidate segment is itself already occupied
(and then checks its twin), so a fresh orthogonal crossing goes undetected. -/
theorem C1_crossing_rejection_missed :
    (plusBoard.add_bridge (1, 0) (1, 2) 1).1.1 = true ∧
      (Orient.H, 1, 1) ∈ plusAfterH.occupied ∧
      (Orient.V, 1, 1) ∈ path_between (0, 1) (2, 1) ∧
      crossing_if_add plusAfterH (0, 1) (2, 1) = false ∧
      plusAfterH.can_add_bridge (0, 1) (2, 1) 1 = (true, "OK") := by
  decide

/-- Claim C2: the no-orthogonal-crossing invariant does NOT hold of all
states reachable by successful operations. After the two successful
`add_bridge` calls on the fresh plus board, the corridors of the two active
ledger entries contain both `(H,1,1)` and `(V,1,1)`: two active bridges
cross at grid edge `(1,1)`. -/
theorem C2_no_crossing_invariant_fails :
    Reachable plusAfterBoth ∧
      (Orient.H, 1, 1) ∈ segsOfEntries plusAfterBoth.bridges ∧
      (Orient.V, 1, 1) ∈ segsOfEntries plusAfterBoth.bridges := by
  refine ⟨?_, by decide, by decide⟩
  exact Reachable.add plusAfterH (0, 1) (2, 1) 1
    (Reachable.add plusBoard (1, 0) (1, 2) 1
      (Reachable.fresh 3 3 [['0', '1', '0'], ['1', '0', '1'], ['0', '1', '0']]) (by decide))
    (by decide)

/-- Claim C3: failure of `solve_csp` is frame-preserving. When the solver
returns `false`, the returned board — bridge ledger and occupied-segment set
included — is exactly the entry board: every `add_bridge` of the failed
search was undone by a matching `remove_bridge`. Stated for entry states
satisfying the data-model invariant `Inv`, which holds of every state the
validated operations can produce (`Reachable_Inv`). -/
theorem C3_failed_search_restores_board {board b2 : Board} {useMrv : Bool}
    (hInv : Inv board) (h : solve_csp board useMrv = (false, b2)) : b2 = board :=
  solve_csp_false hInv h

/-- Witness for claim C3 at the unsolvable 1×2 board `"1,2" / "12"`. -/
theorem C3_failed_search_restores_board_witness :
    (solve_csp unsolvBoard true).2 = unsolvBoard :=
  C3_failed_search_restores_board (by decide)
    (show solve_csp unsolvBoard true = (false, (solve_csp unsolvBoard true).2) by decide)

/-- Claim C4: success of `solve_csp` implies the final board passes
`full_check`: every island's degree equals its required number and the
bridge graph (positive-multiplicity entries as edges) is one connected
component. The base case of `backtrack` returns `true` exactly when
`full_check` passes, and success propagates that board out unchanged. -/
theorem C4_success_passes_full_check {board b2 : Board} {useMrv : Bool}
    (h : solve_csp board useMrv = (true, b2)) : (b2.full_check).1 = true :=
  solve_csp_true h

/-- Witness for claim C4 at the 1×2 demonstration board. -/
theorem C4_success_passes_full_check_witness :
    ((solve_csp demoBoard true).2.full_check).1 = true :=
  C4_success_passes_full_check
    (show solve_csp demoBoard true = (true, (solve_csp demoBoard true).2) by decide)

/-- Claim C5: in every state reachable from a freshly constructed board by
successful `add_bridge` / `remove_bridge` calls, every ledger entry carries
multiplicity 1 or 2 — so with 0 for absent pairs every pair's multiplicity
lies in {0, 1, 2} — and no island's degree exceeds its required number. -/
theorem C5_reachable_multiplicity_and_degree_bounds {b : Board} (h : Reachable b) :
    (∀ e ∈ b.bridges, e.2.k = 1 ∨ e.2.k = 2) ∧
      (∀ a c : Pos, curK b (pairKey a c) = 0 ∨ curK b (pairKey a c) = 1 ∨
        curK b (pairKey a c) = 2) ∧
      ∀ pv ∈ islandsOf b, degree b pv.1 ≤ pv.2 := by
  obtain ⟨hnd, hok, hocc, hdeg⟩ := Reachable_Inv h
  refine ⟨fun e he => (hok e he).2.2.2.2.1, fun a c => ?_, hdeg⟩
  cases hget : dictGet b.bridges (pairKey a c) with
  | none => exact Or.inl (curK_eq_of_get_none hget)
  | some w =>
    have hw : w.k = 1 ∨ w.k = 2 := (hok _ (dictGet_some_mem hget)).2.2.2.2.1
    have hc := curK_eq_of_get_some hget
    rcases hw with h1 | h1
    · exact Or.inr (Or.inl (by rw [hc, h1]))
    · exact Or.inr (Or.inr (by rw [hc, h1]))

/-- Witness for claim C5 at the demo board with its bridge committed. -/
theorem C5_reachable_multiplicity_and_degree_bounds_witness :
    (∀ e ∈ demoWithBridge.bridges, e.2.k = 1 ∨ e.2.k = 2) ∧
      (∀ a c : Pos, curK demoWithBridge (pairKey a c) = 0 ∨
        curK demoWithBridge (pairKey a c) = 1 ∨ curK demoWithBridge (pairKey a c) = 2) ∧
      ∀ pv ∈ islandsOf demoWithBridge, degree demoWithBridge pv.1 ≤ pv.2 :=
  C5_reachable_multiplicity_and_degree_bounds
    (Reachable.add demoBoard (0, 0) (0, 1) 1 (Reachable.fresh 1 2 [['1', '1']]) (by decide))

/-- Counterexample to claim C6 as stated: the pair `{(0,0),(0,1)}` of the
demo board has a ledger entry of multiplicity 1 ≥ 0, yet
`can_remove_bridge (0,0) (0,1) 0` fails — the code also rejects any
`k ∉ {1, 2}`, which the claim's "in every other case it succeeds" misses. -/
theorem C6_can_remove_zero_rejected :
    dictGet demoWithBridge.bridges (pairKey (0, 0) (0, 1)) = some ⟨1, some Orient.H⟩ ∧
      (demoWithBridge.can_remove_bridge (0, 0) (0, 1) 0).1 = false := by
  decide

/-- Claim C6 (amended): `can_remove_bridge a c k` fails exactly when an
endpoint is not an island, or `k ∉ {1, 2}`, or the ledger has no entry for
the unordered pair, or the entry's multiplicity is below `k`; in every other
case it succeeds. The check never modifies the state (in this model it is a
pure function of the board, as in the code). -/
theorem C6_can_remove_failure_characterization (b : Board) (a c : Pos) (k : Int) :
    (b.can_remove_bridge a c k).1 = false ↔
      (is_island? b a).isNone = true ∨ (is_island? b c).isNone = true ∨
        ¬(k = 1 ∨ k = 2) ∨ dictGet b.bridges (pairKey a c) = none ∨
        ∃ w, dictGet b.bridges (pairKey a c) = some w ∧ w.k < k := by
  unfold Board.can_remove_bridge
  by_cases h1 : (is_island? b a).isNone = true ∨ (is_island? b c).isNone = true
  · rw [if_pos h1]
    exact iff_of_true rfl (by tauto)
  · rw [if_neg h1]
    by_cases h2 : ¬(k = 1 ∨ k = 2)
    · rw [if_pos h2]
      exact iff_of_true rfl (by tauto)
    · rw [if_neg h2]
      cases hget : dictGet b.bridges (pairKey a c) with
      | none =>
        exact iff_of_true rfl (by tauto)
      | some w =>
        show (if w.k < k then ((false, "No hay tantos puentes para quitar.") : Bool × String)
            else (true, "OK")).1 = false ↔ _
        by_cases hk : w.k < k
        · rw [if_pos hk]
          exact iff_of_true rfl (Or.inr (Or.inr (Or.inr (Or.inr ⟨w, rfl, hk⟩))))
        · rw [if_neg hk]
          refine iff_of_false (by simp) ?_
          rintro (h | h | h | h | ⟨w', hw', hlt⟩)
          · exact h1 (Or.inl h)
          · exact h1 (Or.inr h)
          · exact h2 h
          · exact Option.noConfusion h
          · obtain rfl := Option.some.inj hw'
            exact hk hlt

/-- Counterexample to claim C7 as stated: the header `"0,0"` is not two
positive integers, yet parsing succeeds and yields the empty 0×0 board —
the code never checks positivity of the header numbers. -/
theorem C7_nonpositive_header_accepted :
    Board.parse_from_lines ["0,0"] = Except.ok (Board.make 0 0 []) := by
  rfl

/-- Claim C7 (amended): parsing constructs no board from malformed input —
empty input, a header without a comma or not reading as exactly two
integers, a row count differing from the header, a row of the wrong width,
or a character outside `'0'..'8'` all fail with a descriptive message — and
succeeds exactly on well-formed inputs. Positivity of the header numbers is
NOT required, contrary to the spec (see the counterexample). -/
theorem C7_parse_succeeds_iff_well_formed (lines : List String) :
    (∃ bd, Board.parse_from_lines lines = Except.ok bd) ↔ WellFormedInput lines :=
  parse_ok_iff lines

/-- Claim C8: on the board parsed from `"1,2" / "11"`, the solver succeeds,
the final ledger is exactly the single entry for `{(0,0),(0,1)}` with
multiplicity 1, and `full_check` passes. -/
theorem C8_demo_board_solved :
    Board.parse_from_lines ["1,2", "11"] = Except.ok demoBoard ∧
      (solve_csp demoBoard true).1 = true ∧
      (solve_csp demoBoard true).2.bridges =
        [(((0, 0), (0, 1)), ⟨1, some Orient.H⟩)] ∧
      (solve_csp demoBoard true).2.full_check = (true, "OK") := by
  refine ⟨by rfl, by decide, by decide, by decide⟩

/-- Claim C9: a successful `add_bridge a c k` followed immediately by
`remove_bridge a c k` succeeds and restores the board — bridge ledger and
occupied-segment set — exactly to its pre-add value. Stated for states
satisfying the data-model invariant `Inv`, which holds of every state the
validated operations can produce (`Reachable_Inv`). -/
theorem C9_remove_undoes_add {b : Board} {a c : Pos} {k : Int} (hInv : Inv b)
    (h : (b.add_bridge a c k).1.1 = true) :
    ((b.add_bridge a c k).2.remove_bridge a c k).1.1 = true ∧
      ((b.add_bridge a c k).2.remove_bridge a c k).2 = b :=
  add_remove_id hInv h

/-- Witness for claim C9 at the demo board. -/
theorem C9_remove_undoes_add_witness :
    ((demoBoard.add_bridge (0, 0) (0, 1) 1).2.remove_bridge (0, 0) (0, 1) 1).1.1 = true ∧
      ((demoBoard.add_bridge (0, 0) (0, 1) 1).2.remove_bridge (0, 0) (0, 1) 1).2 = demoBoard :=
  C9_remove_undoes_add (by decide) (by decide)

/-- Claim C10: every bridge operation is symmetric in endpoint order — the
verdicts of `can_add_bridge` and `add_bridge`, the full result of
`can_remove_bridge` and the verdict of `remove_bridge` coincide for the two
orders, and `add_bridge` and `remove_bridge` produce identical resulting
states, because the ledger is keyed by the canonical unordered pair and
corridors, orientation and visibility are direction-symmetric. -/
theorem C10_endpoint_order_symmetry (b : Board) (a c : Pos) (k : Int) :
    (b.can_add_bridge a c k).1 = (b.can_add_bridge c a k).1 ∧
      (b.add_bridge a c k).1.1 = (b.add_bridge c a k).1.1 ∧
      (b.add_bridge a c k).2 = (b.add_bridge c a k).2 ∧
      b.can_remove_bridge a c k = b.can_remove_bridge c a k ∧
      (b.remove_bridge a c k).1 = (b.remove_bridge c a k).1 ∧
      (b.remove_bridge a c k).2 = (b.remove_bridge c a k).2 :=
  ⟨can_add_verdict_symm b a c k, add_bridge_verdict_symm b a c k,
    add_bridge_state_symm b a c k, can_remove_symm b a c k,
    remove_bridge_verdict_symm b a c k, remove_bridge_state_symm b a c k⟩

end Hashi
